import Mathlib

/-!
Verification development for the `GBappendixA` module of SFPPylite
(`src/content/patankar/private/GBappendixA.py`): the GB 9685-2016
positive-list ingestion and lookup engine.

Strings are modelled as `List Char`.  Python regular-expression scanning
(`re.findall`, `re.match`, `re.search`) is embedded as explicit
backtracking scanners specialised to the exact patterns of the source,
with the standard leftmost, longest-prefix-first candidate order of the
CPython engine for those patterns.  Python numbers are modelled as
`Int` (for `int`) and `ℚ` (for `float`): every float manipulated by the
module originates from a short decimal literal, on which IEEE doubles
compare exactly like the corresponding rationals.
-/

namespace SFPPy

/-! ## Character classes and Python-style string helpers -/

/-- ASCII decimal digit, as matched by `\d` on the module's data. -/
def isDigitC (c : Char) : Bool := '0' ≤ c && c ≤ '9'

/-- Python `\s` (ASCII whitespace; the CSV cells contain no exotic spaces). -/
def isSpaceC (c : Char) : Bool :=
  c = ' ' || c = '\t' || c = '\n' || c = '\r' || c = '\x0b' || c = '\x0c'

/-- Python `\w`: ASCII alphanumerics, underscore, and (approximating the
Unicode word class, which covers the CJK text of the CSV) every
character above U+007F. -/
def isWordC (c : Char) : Bool :=
  isDigitC c || ('a' ≤ c && c ≤ 'z') || ('A' ≤ c && c ≤ 'Z') || c = '_' || 128 ≤ c.toNat

/-- `pat.isPrefixOf s` on raw characters. -/
def startsWithL (pat s : List Char) : Bool :=
  match pat, s with
  | [], _ => true
  | _ :: _, [] => false
  | p :: ps, c :: cs => p = c && startsWithL ps cs

/-- Python `pat in s` (substring containment). -/
def containsSub (pat : List Char) : List Char → Bool
  | [] => pat.isEmpty
  | c :: cs => startsWithL pat (c :: cs) || containsSub pat cs

/-- ASCII lowering, for the `re.IGNORECASE` comparisons. -/
def lowerL (l : List Char) : List Char := l.map Char.toLower

/-- Python `str.strip()` (whitespace at both ends). -/
def pyStrip (l : List Char) : List Char :=
  ((l.dropWhile isSpaceC).reverse.dropWhile isSpaceC).reverse

/-- Python `str.rstrip(chars)` for a single character. -/
def pyRstripChar (ch : Char) (l : List Char) : List Char :=
  (l.reverse.dropWhile (· = ch)).reverse

/-- Python `str.split(sep)` for a one-character separator (keeps empties). -/
def splitOnC (sep : Char) : List Char → List (List Char)
  | [] => [[]]
  | c :: cs =>
      let r := splitOnC sep cs
      if c = sep then [] :: r
      else
        match r with
        | [] => [[c]]
        | h :: t => (c :: h) :: t

/-! ## Numeric literal values

`natOfDigits` reads a run of decimal digit characters; `qOfTok` is the
value `float(tok)` of a token matched by `[+-]?\d*\.?\d+`, and
`intOfTok` the value `int(tok)` of a dot-free such token. -/

def natOfDigits (l : List Char) : Nat :=
  l.foldl (fun a c => a * 10 + (c.toNat - 48)) 0

/-- The rational value of a signed decimal token `[ip].[fr]`
(`mkRat` is used instead of rational arithmetic so that concrete
instances evaluate inside the kernel; the value is the same). -/
def qOfCoreS (neg : Bool) (l : List Char) : ℚ :=
  let ip := l.takeWhile (· ≠ '.')
  let s : Int := if neg then -1 else 1
  match l.drop ip.length with
  | '.' :: fr =>
      mkRat (s * (natOfDigits ip * 10 ^ fr.length + natOfDigits fr)) (10 ^ fr.length)
  | _ => mkRat (s * natOfDigits ip) 1

def qOfCore (l : List Char) : ℚ := qOfCoreS false l

def qOfTok (l : List Char) : ℚ :=
  match l with
  | '+' :: r => qOfCoreS false r
  | '-' :: r => qOfCoreS true r
  | r => qOfCoreS false r

def intOfTok (l : List Char) : Int :=
  match l with
  | '+' :: r => (natOfDigits r : Int)
  | '-' :: r => -(natOfDigits r : Int)
  | r => (natOfDigits r : Int)

/-! ## Python values produced by the limit parsers -/

/-- A Python number as stored in the records: `int` or `float`. -/
inductive PyNum where
  | pint : Int → PyNum
  | pfloat : ℚ → PyNum
deriving DecidableEq

/-- Python type tag of the number. -/
def PyNum.isFloat : PyNum → Bool
  | .pint _ => false
  | .pfloat _ => true

/-- Python truthiness of a number (`0` and `0.0` are falsy). -/
def pyFalsyNum : PyNum → Bool
  | .pint n => n = 0
  | .pfloat q => q = 0

/-- Result of the extraction helpers: `None`, a scalar, or a list. -/
inductive PyRes where
  | rnone : PyRes
  | rnum : PyNum → PyRes
  | rlist : List PyNum → PyRes
deriving DecidableEq

/-- `unwrap` (GBappendixA.py lines 82-93) applied to a Python list:
an empty list is falsy and yields `None`; a singleton collapses to its
sole element; any other list passes through. -/
def unwrapL (vs : List PyNum) : PyRes :=
  match vs with
  | [] => .rnone
  | [v] => .rnum v
  | vs => .rlist vs

/-- `unwrap` applied to a scalar-or-`None` (as for `qm_value` and
`dl_value` at lines 444-445): `None` and falsy numbers (`0`, `0.0`)
yield `None`; anything else passes through. -/
def unwrapS (v : Option PyNum) : PyRes :=
  match v with
  | none => .rnone
  | some x => if pyFalsyNum x then .rnone else .rnum x

/-- A general Python object, as far as `unwrap`'s truthiness test needs. -/
inductive PyObj where
  | onone : PyObj
  | onum : PyNum → PyObj
  | ostr : List Char → PyObj
  | olist : List PyObj → PyObj

/-- Python truthiness on these objects. -/
def pyFalsyObj : PyObj → Bool
  | .onone => true
  | .onum v => pyFalsyNum v
  | .ostr s => s.isEmpty
  | .olist xs => xs.isEmpty

/-- `unwrap` (lines 82-93) on a general object: any falsy value —
`None`, `0`, `0.0`, `""`, `[]` — returns `None`; a singleton list
collapses; everything else passes through. -/
def unwrapPy (x : PyObj) : PyObj :=
  if pyFalsyObj x then .onone
  else
    match x with
    | .olist [y] => y
    | x => x

/-! ## The two findall scanners

Both patterns begin with the token `[+-]?\d*\.?\d+`.  At a scan
position the CPython backtracking engine tries the candidate prefixes
that fully match the token, longest first; the first candidate whose
continuation also matches wins, and scanning resumes at the end of the
full match.  `numShapeCore` is the dot-digit body, `numShapeSigned`
adds the optional sign. -/

def numShapeCore (l : List Char) : Bool :=
  (match l.reverse with
   | [] => false
   | c :: _ => isDigitC c) &&
  l.all (fun c => isDigitC c || c = '.') &&
  (l.count '.' ≤ 1)

def numShapeSigned (l : List Char) : Bool :=
  match l with
  | '+' :: r => numShapeCore r
  | '-' :: r => numShapeCore r
  | r => numShapeCore r

/-- Candidate `(token, rest)` splits at the current position, longest
token first, each token fully matching `shape`. -/
def numCandidates (shape : List Char → Bool) (cs : List Char) :
    List (List Char × List Char) :=
  ((List.range' 1 cs.length).reverse).filterMap (fun k =>
    let t := cs.take k
    if shape t then some (t, cs.drop k) else none)

/-- Continuation of pattern `\s*\(([^)]*kw[^)]*)\)` after the numeric
token: optional whitespace, an opening parenthesis, the span up to the
first closing parenthesis (which must contain `kw` case-insensitively),
and the closing parenthesis.  Returns the captured span and the rest. -/
def p1ContAfter (kw rest : List Char) : Option (List Char × List Char) :=
  let r1 := rest.dropWhile isSpaceC
  match r1 with
  | '(' :: r2 =>
      let info := r2.takeWhile (· ≠ ')')
      match r2.drop info.length with
      | ')' :: r4 =>
          if containsSub (lowerL kw) (lowerL info) then some (info, r4) else none
      | _ => none
  | _ => none

def p1TryAt (kw cs : List Char) : Option ((List Char × List Char) × List Char) :=
  (numCandidates numShapeSigned cs).findSome? (fun td =>
    (p1ContAfter kw td.2).map (fun ir => ((td.1, ir.1), ir.2)))

/-- Continuation of pattern `\s*[\W]*\s*kw\b` after the numeric token:
`\s ⊆ \W`, so the separator is a maximal run of non-word characters
(`kw` starts with a word character, so no shorter run can succeed);
then `kw` case-insensitively, then a word boundary. -/
def p2ContAfter (kw rest : List Char) : Option (List Char) :=
  let r1 := rest.dropWhile (fun c => !isWordC c)
  if startsWithL (lowerL kw) (lowerL r1) then
    let r2 := r1.drop kw.length
    match r2 with
    | [] => some []
    | c :: _ => if isWordC c then none else some r2
  else none

def p2TryAt (kw cs : List Char) : Option (List Char × List Char) :=
  (numCandidates numShapeSigned cs).findSome? (fun td =>
    (p2ContAfter kw td.2).map (fun r => (td.1, r)))

/-- `re.findall` driver: scan left to right, at each position try a
match; on success emit it and resume after the match, else advance one
character.  Every match consumes at least one character, so fuel equal
to the input length suffices. -/
def findallAux {α : Type} (tryAt : List Char → Option (α × List Char)) :
    Nat → List Char → List α
  | 0, _ => []
  | _, [] => []
  | fuel + 1, c :: rest =>
      match tryAt (c :: rest) with
      | some (m, after) => m :: findallAux tryAt fuel after
      | none => findallAux tryAt fuel rest

/-- `re.findall(r'([+-]?\d*\.?\d+)\s*\(([^)]*kw[^)]*)\)', text, re.IGNORECASE)`:
the list of `(number, parenthesised-span)` capture pairs. -/
def findallP1 (text kw : List Char) : List (List Char × List Char) :=
  findallAux (p1TryAt kw) text.length text

/-- `re.findall(r'([+-]?\d*\.?\d+)\s*[\W]*\s*kw\b', text, re.IGNORECASE)`:
the list of numeric-token captures. -/
def findallP2 (text kw : List Char) : List (List Char) :=
  findallAux (p2TryAt kw) text.length text

/-- The conversion of line 133: `float(m) if '.' in m else int(m)`. -/
def pyNumOfTok (l : List Char) : PyNum :=
  if l.contains '.' then .pfloat (qOfTok l) else .pint (intOfTok l)

/-- `extract_number_before_keyword` (lines 116-133). -/
def extract_number_before_keyword (text kw : List Char) : PyRes :=
  unwrapL ((findallP2 text kw).map pyNumOfTok)

/-- `extract_number_before_keyword_in_parentheses` (lines 95-113):
every captured number is converted by `float(num)`; a `None` result
falls back to the looser keyword-proximity pattern. -/
def extract_number_before_keyword_in_parentheses (text kw : List Char) : PyRes :=
  let res := unwrapL ((findallP1 text kw).map (fun m => PyNum.pfloat (qOfTok m.1)))
  if res = .rnone then extract_number_before_keyword text kw else res

/-! ## `split_col5_content` (lines 136-154)

`re.search` of `(ND|\d+(?:\.\d+)?)(\([^)]*KW[^)]*\)|\[[^\]]*KW[^\]]*\])`
with `KW = (SML|DL|QM|SML\(T\))`: only the position of the first match
matters, so the embedding locates the earliest offset at which a value
(`ND` or an unsigned number, the dotted form requiring digits on both
sides of the dot) is immediately followed by a bracket group whose span
contains one of the keywords (case-sensitively; `SML(T)` is subsumed by
`SML`). -/

/-- The `\d+(?:\.\d+)?` token shape: digits with at most one interior dot. -/
def numShapeCol5 (l : List Char) : Bool :=
  (match l with
   | [] => false
   | c :: _ => isDigitC c) &&
  (match l.reverse with
   | [] => false
   | c :: _ => isDigitC c) &&
  l.all (fun c => isDigitC c || c = '.') &&
  (l.count '.' ≤ 1)

/-- Does the bracket-content span contain one of the regulatory keywords? -/
def containsRegKw (content : List Char) : Bool :=
  containsSub ['S', 'M', 'L'] content || containsSub ['D', 'L'] content ||
    containsSub ['Q', 'M'] content

/-- Bracket group immediately after the value: `(...)` or `[...]`, its
span (up to the first matching closer) containing a keyword. -/
def col5BracketOK (rest : List Char) : Bool :=
  match rest with
  | '(' :: r2 =>
      let content := r2.takeWhile (· ≠ ')')
      (match r2.drop content.length with
       | ')' :: _ => containsRegKw content
       | _ => false)
  | '[' :: r2 =>
      let content := r2.takeWhile (· ≠ ']')
      (match r2.drop content.length with
       | ']' :: _ => containsRegKw content
       | _ => false)
  | _ => false

/-- Does the search pattern match starting exactly here? -/
def col5MatchAt (cs : List Char) : Bool :=
  (startsWithL ['N', 'D'] cs && col5BracketOK (cs.drop 2)) ||
  (numCandidates numShapeCol5 cs).any (fun td => col5BracketOK td.2)

/-- Offset of the first position where the pattern matches. -/
def col5FindAux : List Char → Option Nat
  | [] => none
  | c :: rest =>
      if col5MatchAt (c :: rest) then some 0
      else (col5FindAux rest).map (· + 1)

/-- `split_col5_content`: split just before the first value-plus-bracket
annotation; without one, the whole text (stripped) and `""`. -/
def split_col5_content (text : List Char) : List Char × List Char :=
  match col5FindAux text with
  | some i => (pyStrip (text.take i), pyStrip (text.drop i))
  | none => (pyStrip text, [])

/-! ## Python `float()` on a stripped string (finite decimal literals,
with optional exponent; `inf`/`nan`/underscores are outside the data
modelled here). -/

def pyFloat (l : List Char) : Option ℚ :=
  let (neg, r0) : Bool × List Char :=
    match l with
    | '+' :: r => (false, r)
    | '-' :: r => (true, r)
    | r => (false, r)
  let ip := r0.takeWhile isDigitC
  let r1 := r0.dropWhile isDigitC
  let (fr, r2) : List Char × List Char :=
    match r1 with
    | '.' :: rr => (rr.takeWhile isDigitC, rr.dropWhile isDigitC)
    | _ => ([], r1)
  let hasDot : Bool := match r1 with | '.' :: _ => true | _ => false
  if ip = [] && fr = [] then none
  else
    let s : Int := if neg then -1 else 1
    let mantNum : Nat := natOfDigits ip * 10 ^ fr.length + natOfDigits fr
    let mantDen : Nat := 10 ^ fr.length
    let r2' := if hasDot then r2 else r1
    match r2' with
    | [] => some (mkRat (s * mantNum) mantDen)
    | 'e' :: re | 'E' :: re =>
        let (esgn, re1) : Bool × List Char :=
          match re with
          | '+' :: rr => (false, rr)
          | '-' :: rr => (true, rr)
          | rr => (false, rr)
        let eds := re1.takeWhile isDigitC
        if eds = [] || re1.drop eds.length ≠ [] then none
        else
          let e := natOfDigits eds
          if esgn then some (mkRat (s * mantNum) (mantDen * 10 ^ e))
          else some (mkRat (s * (mantNum * 10 ^ e)) mantDen)
    | _ => none

/-! ## Column 5 of a row (lines 397-409)

`range_field, remcol5 = split_col5_content(row[4].strip())`, then the
colon/comma splitting and the percentage conversion `* 1e4`. -/

/-- `[x.strip() for x in l.split(",") if x.strip()]`. -/
def commaSplitStrip (l : List Char) : List (List Char) :=
  ((splitOnC ',' l).map pyStrip).filter (· ≠ [])

/-- Multiplication by `1e4`, written through `mkRat` so that concrete
instances evaluate inside the kernel (`mkRat (10000 * q.num) q.den` is
the rational `q * 10000`). -/
def qTimes1e4 (q : ℚ) : ℚ := mkRat (10000 * q.num) q.den

/-- Parse the usage-range cell: returns `((materials, CP0max), remcol5)`. -/
def parseCol5 (cell : List Char) : (List (List Char) × Option ℚ) × List Char :=
  let rf_rem := split_col5_content (pyStrip cell)
  let range_field := rf_rem.1
  if range_field.contains ':' then
    let parts := splitOnC ':' range_field
    let materials := commaSplitStrip parts.headI
    let CP0max := (pyFloat (pyStrip ((parts.drop 1).headI))).map qTimes1e4
    ((materials, CP0max), rf_rem.2)
  else
    ((commaSplitStrip range_field, none), rf_rem.2)

/-! ## Column 6 of a row (lines 411-452)

First pass: split the cell on `;`, strip, drop empties, right-strip
`或`, and anchor-match `(?P<val>\d*\.?\d+|ND)\s*\((?P<info>.+?)\)` on
each entry (number alternative first, longest candidate first; the lazy
`(.+?)` captures the nonempty newline-free span up to the first `)`).
Second pass: any field still `None` whose keyword occurs in the raw
cell is recomputed by the parenthesised extractor. -/

/-- Continuation `\s*\((.+?)\)` after the value token. -/
def entryCont (rest : List Char) : Option (List Char) :=
  let r1 := rest.dropWhile isSpaceC
  match r1 with
  | '(' :: r2 =>
      let info := r2.takeWhile (· ≠ ')')
      (match r2.drop info.length with
       | ')' :: _ =>
           if info ≠ [] && !info.contains '\n' then some info else none
       | _ => none)
  | _ => none

/-- `re.match` of the entry pattern: `some (valTok?, info)` where
`valTok? = none` encodes the `ND` alternative. -/
def matchEntry (entry : List Char) : Option (Option (List Char) × List Char) :=
  match (numCandidates numShapeCore entry).findSome?
      (fun td => (entryCont td.2).map (fun info => (some td.1, info))) with
  | some r => some r
  | none =>
      if startsWithL ['N', 'D'] entry then
        (entryCont (entry.drop 2)).map (fun info => ((none : Option (List Char)), info))
      else none

/-- `re.search(r'DL=([\d\.]+)mg/kg', info)`: first occurrence, greedy
digit-and-dot run followed by the literal unit. -/
def dlSearch : List Char → Option (List Char)
  | [] => none
  | c :: rest =>
      let here :=
        if startsWithL ['D', 'L', '='] (c :: rest) then
          let r := (c :: rest).drop 3
          let run := r.takeWhile (fun c => isDigitC c || c = '.')
          if run ≠ [] && startsWithL ['m', 'g', '/', 'k', 'g'] (r.drop run.length) then
            some run
          else none
        else none
      match here with
      | some run => some run
      | none => dlSearch rest

/-- Accumulator of the first pass over the entries. -/
structure Col6St where
  sml : List PyNum
  qm : Option PyNum
  dl : Option PyNum

/-- One entry of the first pass (lines 418-442). -/
def col6Step (st : Col6St) (entry0 : List Char) : Col6St :=
  let entry := pyRstripChar '或' entry0
  match matchEntry entry with
  | none => st
  | some (valOpt, info) =>
      let num_val : Option PyNum := valOpt.map (fun tok => PyNum.pfloat (qOfCore tok))
      let sml' :=
        match num_val, containsSub [':', 'S', 'M', 'L'] info with
        | some v, true => st.sml ++ [v]
        | _, _ => st.sml
      let qm' :=
        match num_val, containsSub [':', 'Q', 'M'] info with
        | some v, true => some v
        | _, _ => st.qm
      let dl' :=
        match dlSearch info with
        | some run => (pyFloat run).map PyNum.pfloat
        | none => st.dl
      ⟨sml', qm', dl'⟩

/-- The full column-6 pipeline: `(SML, QM, DL)` as finally stored. -/
def parseCol6 (field : List Char) : PyRes × PyRes × PyRes :=
  let entries := ((splitOnC ';' field).map pyStrip).filter (· ≠ [])
  let st := entries.foldl col6Step ⟨[], none, none⟩
  let SML0 := unwrapL st.sml
  let QM0 := unwrapS st.qm
  let DL0 := unwrapS st.dl
  let SML :=
    if SML0 = .rnone && containsSub ['S', 'M', 'L'] field then
      extract_number_before_keyword_in_parentheses field ['S', 'M', 'L']
    else SML0
  let QM :=
    if QM0 = .rnone && containsSub ['Q', 'M'] field then
      extract_number_before_keyword_in_parentheses field ['Q', 'M']
    else QM0
  let DL :=
    if DL0 = .rnone && containsSub ['D', 'L'] field then
      extract_number_before_keyword_in_parentheses field ['D', 'L']
    else DL0
  (SML, QM, DL)

/-! ## Record merging (lines 520-552)

`records_dict` is an insertion-ordered mapping keyed by the FCA digit
string, modelled as an association list.  The merge step never inspects
the positive-list payload, so the embedding is polymorphic in it. -/

/-- Scalar-or-list branch value under a category key. -/
inductive OneOrMany (π : Type) where
  | one : π → OneOrMany π
  | many : List π → OneOrMany π

/-- A merged record: identifying fields of the first row seen, the
`authorized in` list, and the per-category branches. -/
structure Rec (π : Type) where
  fca : List Char
  cid : Option Int
  cas : List (List Char)
  authorizedIn : List (List Char)
  chineseName : List Char
  branches : List (List Char × OneOrMany π)

/-- One parsed CSV row, as fed to the merge step. -/
structure RowIn (π : Type) where
  fca : List Char
  tableDesc : List Char
  cid : Option Int
  cas : List (List Char)
  chineseName : List Char
  pos : π

/-- Association-list lookup (Python `d[k]` / `k in d`). -/
def alookup {V : Type} (k : List Char) : List (List Char × V) → Option V
  | [] => none
  | (k', v) :: t => if k' = k then some v else alookup k t

/-- Association-list in-place update of an existing key. -/
def aset {V : Type} (k : List Char) (v : V) : List (List Char × V) → List (List Char × V)
  | [] => []
  | (k', v') :: t => if k' = k then (k, v) :: t else (k', v') :: aset k v t

/-- Branch update (lines 539-548): append to an existing list, turn a
scalar into a two-element list, or install the scalar. -/
def updateBranch {π : Type} (bs : List (List Char × OneOrMany π)) (k : List Char) (p : π) :
    List (List Char × OneOrMany π) :=
  match alookup k bs with
  | some (.one x) => aset k (.many [x, p]) bs
  | some (.many xs) => aset k (.many (xs ++ [p])) bs
  | none => bs ++ [(k, .one p)]

/-- One row of the merge loop (lines 533-552). -/
def mergeStep {π : Type} (st : List (List Char × Rec π)) (row : RowIn π) :
    List (List Char × Rec π) :=
  match alookup row.fca st with
  | some record =>
      let r1 :=
        if row.tableDesc ∈ record.authorizedIn then record
        else { record with authorizedIn := record.authorizedIn ++ [row.tableDesc] }
      let r2 := { r1 with branches := updateBranch r1.branches row.tableDesc row.pos }
      aset row.fca r2 st
  | none =>
      st ++ [(row.fca,
        { fca := row.fca, cid := row.cid, cas := row.cas,
          authorizedIn := [row.tableDesc], chineseName := row.chineseName,
          branches := [(row.tableDesc, .one row.pos)] })]

/-- The whole ingestion pass over the retained rows. -/
def mergeRows {π : Type} (rows : List (RowIn π)) : List (List Char × Rec π) :=
  rows.foldl mergeStep []

/-- Order-preserving de-duplication (`append if not already present`). -/
def insNew (acc : List (List Char)) (x : List Char) : List (List Char) :=
  if x ∈ acc then acc else acc ++ [x]

/-- First-seen-order list of the distinct elements. -/
def firstSeen (l : List (List Char)) : List (List Char) :=
  l.foldl insNew []

/-- The category names of the rows carrying a given primary identifier,
in file order. -/
def catsOf {π : Type} (rows : List (RowIn π)) (f : List Char) : List (List Char) :=
  (rows.filter (fun r => r.fca = f)).map RowIn.tableDesc

/-! ## The global `FCA` index mapping (line 561)

`new_index["FCA"].setdefault(fca_num, []).append(fca_num)` runs once
per retained row. -/

def fcaIndexStep (idx : List (List Char × List (List Char))) (f : List Char) :
    List (List Char × List (List Char)) :=
  match alookup f idx with
  | some l => aset f (l ++ [f]) idx
  | none => idx ++ [(f, [f])]

def buildFcaIndex (fcas : List (List Char)) : List (List Char × List (List Char)) :=
  fcas.foldl fcaIndexStep []

/-! ## Slice lookup (`__getitem__`, lines 616-622) -/

/-- `int(k)` on the digit-string keys of `order`. -/
def pyIntDigits (k : List Char) : Int := (natOfDigits k : Int)

/-- Python `<` on strings: lexicographic by code point. -/
def lexLt : List Char → List Char → Bool
  | [], [] => false
  | [], _ :: _ => true
  | _ :: _, [] => false
  | a :: as, b :: bs =>
      if a.toNat < b.toNat then true
      else if b.toNat < a.toNat then false
      else lexLt as bs

/-- Python `min` over a nonempty string list (first minimum kept). -/
def minLexNE (h : List Char) (t : List (List Char)) : List Char :=
  t.foldl (fun m x => if lexLt x m then x else m) h

/-- Python `max` over a nonempty string list (first maximum kept). -/
def maxLexNE (h : List Char) (t : List (List Char)) : List Char :=
  t.foldl (fun m x => if lexLt m x then x else m) h

/-- Failure modes of the slice path. -/
inductive SliceFail where
  | keyErr : Int → Int → List Char → List Char → SliceFail
  | valueErr : SliceFail
deriving DecidableEq

/-- The slice branch of `__getitem__` with both bounds given as
integers: filter `order` by `int(start) <= int(k) < int(stop)`; when
nothing matches, raise a `KeyError` whose message interpolates `start`,
`stop - 1`, `min(self.order)` and `max(self.order)` (Python `min`/`max`
of strings, hence lexicographic); `min` of an empty list would raise a
`ValueError` instead. -/
def getitemSlice (order : List (List Char)) (start stop : Int) :
    Except SliceFail (List (List Char)) :=
  let rec_keys := order.filter (fun k =>
    decide (start ≤ pyIntDigits k) && decide (pyIntDigits k < stop))
  if rec_keys.isEmpty then
    match order with
    | [] => .error .valueErr
    | o :: os => .error (.keyErr start (stop - 1) (minLexNE o os) (maxLexNE o os))
  else .ok rec_keys

/-! ## Open-ended slice (`key.stop is None`, lines 617-618)

`stop = max(self.order, key=lambda x: int(x)) + 1` adds the integer `1`
to a string element of `order`. -/

/-- A dynamically-typed Python value, as far as the `+` at line 618 needs. -/
inductive PyV where
  | vint : Int → PyV
  | vstr : List Char → PyV
deriving DecidableEq

inductive PyFail where
  | typeErr : PyFail
  | valueErr : PyFail
deriving DecidableEq

/-- Python `+` on these values: ints add, strings concatenate, a mixed
pair raises `TypeError`. -/
def pyAddV : PyV → PyV → Except PyFail PyV
  | .vint a, .vint b => .ok (.vint (a + b))
  | .vstr a, .vstr b => .ok (.vstr (a ++ b))
  | _, _ => .error .typeErr

/-- `max(order, key=lambda x: int(x))` over a nonempty list: the first
element with maximal integer key. -/
def maxByIntKey (h : List Char) (t : List (List Char)) : List Char :=
  t.foldl (fun m x => if pyIntDigits m < pyIntDigits x then x else m) h

/-- The slice branch when `key.stop is None`: the default stop is the
string with maximal integer key, plus the integer `1`. -/
def getitemSliceOpenStop (order : List (List Char)) (start : Int) :
    Except PyFail (List (List Char)) :=
  match order with
  | [] => .error .valueErr
  | o :: os =>
      match pyAddV (.vstr (maxByIntKey o os)) (.vint 1) with
      | .error e => .error e
      | .ok (.vint stop) =>
          .ok (order.filter (fun k =>
            decide (start ≤ pyIntDigits k) && decide (pyIntDigits k < stop)))
      | .ok (.vstr _) => .error .typeErr

/-! ## Containment check (`__contains__`, lines 709-716) -/

/-- The decimal digit character of `d < 10`. -/
def digitChar : Nat → Char
  | 0 => '0' | 1 => '1' | 2 => '2' | 3 => '3' | 4 => '4'
  | 5 => '5' | 6 => '6' | 7 => '7' | 8 => '8' | 9 => '9'
  | _ => '?'

/-- The value of a decimal digit character. -/
def digitVal (c : Char) : Nat := c.toNat - 48

/-- Big-endian decimal digits (fuel-based so that concrete instances
evaluate inside the kernel; fuel `n + 1` always suffices). -/
def natCharsAux : Nat → Nat → List Char
  | 0, _ => []
  | fuel + 1, n =>
      if n < 10 then [digitChar n]
      else natCharsAux fuel (n / 10) ++ [digitChar (n % 10)]

/-- `str(n)` for a Python natural number. -/
def natChars (n : Nat) : List Char := natCharsAux (n + 1) n

def pyStrOfInt (n : Int) : List Char :=
  if n < 0 then '-' :: natChars n.natAbs else natChars n.natAbs

/-- An argument to `__contains__`. -/
inductive PyKey where
  | kint : Int → PyKey
  | kstr : List Char → PyKey
  | klist : List PyKey → PyKey
  | kother : PyKey

/-- The key sets of the loaded index that `__contains__` consults. -/
structure GBIndex where
  order : List (List Char)
  bycid : List (List Char)
  casKeys : List (List Char)

/-- The dispatch after the one-shot list reduction: an integer is looked
up (as a string) in the order list and the `bycid` keys, a string in the
`CAS` keys, anything else is `False`. -/
def containsAtom (ix : GBIndex) : PyKey → Bool
  | .kint n => (ix.order.contains (pyStrOfInt n)) || (ix.bycid.contains (pyStrOfInt n))
  | .kstr s => ix.casKeys.contains s
  | _ => false

/-- `__contains__`: a list or tuple argument is replaced by its first
element (an empty one raises `IndexError`), then the atom dispatch runs. -/
def containsGB (ix : GBIndex) : PyKey → Except Unit Bool
  | .klist [] => .error ()
  | .klist (x :: _) => .ok (containsAtom ix x)
  | k => .ok (containsAtom ix k)

/-! ## The persistence layer (lines 564-571 and 595-601)

`refresh_index` writes each merged record with `json.dump(record, jf,
ensure_ascii=False, indent=2)`; `_load_record` reads it back with
`json.load` and wraps the resulting `dict` in `gbrecord`, which copies
its content unchanged.  The wire format is modelled by an explicit
printer and recursive-descent reader over a JSON value type whose
numbers keep Python's `int`/`float` distinction: an integer is written
as bare digits, a float as a decimal literal with a mandatory point
(floats parsed by this module are finite decimals, which `repr` writes
back literally).  The printer emits the compact rendering; `json.load`
is insensitive to the `indent=2` whitespace.  Strings are taken from
the well-formed range that `json.dump(ensure_ascii=False)` writes
literally (no `"`, no backslash, no control characters). -/

/-- A JSON document: `jfloat neg ip fr` denotes the float literal
`[-]ip.fr` (sign, integer part, fractional digits). -/
inductive JVal where
  | jnull : JVal
  | jint : Int → JVal
  | jfloat : Bool → Nat → List Nat → JVal
  | jstr : List Char → JVal
  | jarr : List JVal → JVal
  | jobj : List (List Char × JVal) → JVal

/-- `str(n)` for a Python integer. -/
def intChars (n : Int) : List Char :=
  if n < 0 then '-' :: natChars n.natAbs else natChars n.natAbs

mutual

/-- Compact rendering of a document (what `json.dump` writes, modulo
the optional indentation whitespace). -/
def renderV : JVal → List Char
  | .jnull => ['n', 'u', 'l', 'l']
  | .jint n => intChars n
  | .jfloat neg ip fr =>
      (if neg then ['-'] else []) ++ natChars ip ++ '.' :: fr.map digitChar
  | .jstr s => '"' :: (s ++ ['"'])
  | .jarr es => '[' :: renderElems es
  | .jobj ms => '{' :: renderMembers ms

def renderElems : List JVal → List Char
  | [] => [']']
  | [e] => renderV e ++ [']']
  | e :: e2 :: es => renderV e ++ ',' :: renderElems (e2 :: es)

def renderMembers : List (List Char × JVal) → List Char
  | [] => ['}']
  | [(k, v)] => '"' :: (k ++ '"' :: ':' :: (renderV v ++ ['}']))
  | (k, v) :: m2 :: ms =>
      '"' :: (k ++ '"' :: ':' :: (renderV v ++ ',' :: renderMembers (m2 :: ms)))

end

/-- Contents of a string token up to the closing quote. -/
def parseStrBody : List Char → Option (List Char × List Char)
  | [] => none
  | c :: rest =>
      if c = '"' then some ([], rest)
      else (parseStrBody rest).map (fun p => (c :: p.1, p.2))

/-- A number token after the optional minus sign: bare digits give an
integer, a decimal point with digits on both sides gives a float. -/
def parseNumTail (neg : Bool) (r0 : List Char) : Option (JVal × List Char) :=
  let ds := r0.takeWhile isDigitC
  if ds = [] then none
  else
    let r1 := r0.dropWhile isDigitC
    if r1.head? = some '.' then
      let r2 := r1.tail
      let fs := r2.takeWhile isDigitC
      if fs = [] then none
      else some (.jfloat neg (natOfDigits ds) (fs.map digitVal), r2.dropWhile isDigitC)
    else
      some (.jint (if neg then -(natOfDigits ds : Int) else (natOfDigits ds : Int)), r1)

/-- A number token, with the optional minus sign. -/
def parseNumJ (cs : List Char) : Option (JVal × List Char) :=
  if cs.head? = some '-' then parseNumTail true cs.tail else parseNumTail false cs

mutual

/-- Recursive-descent reader (fuelled; fuel one past the input length
always suffices). -/
def parseV : Nat → List Char → Option (JVal × List Char)
  | 0, _ => none
  | fuel + 1, cs =>
      match cs with
      | 'n' :: 'u' :: 'l' :: 'l' :: r => some (.jnull, r)
      | '"' :: r => (parseStrBody r).map (fun p => (.jstr p.1, p.2))
      | '[' :: ']' :: r => some (.jarr [], r)
      | '[' :: r => (parseElems fuel r).map (fun p => (.jarr p.1, p.2))
      | '{' :: '}' :: r => some (.jobj [], r)
      | '{' :: r => (parseMembers fuel r).map (fun p => (.jobj p.1, p.2))
      | _ => parseNumJ cs

def parseElems : Nat → List Char → Option (List JVal × List Char)
  | 0, _ => none
  | fuel + 1, cs =>
      match parseV fuel cs with
      | none => none
      | some (v, r) =>
          match r with
          | ',' :: r2 => (parseElems fuel r2).map (fun p => (v :: p.1, p.2))
          | ']' :: r2 => some ([v], r2)
          | _ => none

def parseMembers : Nat → List Char → Option (List (List Char × JVal) × List Char)
  | 0, _ => none
  | fuel + 1, cs =>
      match cs with
      | '"' :: r =>
          match parseStrBody r with
          | none => none
          | some (k, r1) =>
              match r1 with
              | ':' :: r2 =>
                  match parseV fuel r2 with
                  | none => none
                  | some (v, r3) =>
                      match r3 with
                      | ',' :: r4 => (parseMembers fuel r4).map (fun p => ((k, v) :: p.1, p.2))
                      | '}' :: r4 => some ([(k, v)], r4)
                      | _ => none
              | _ => none
      | _ => none

end

/-- Serialize one record document (`json.dump`). -/
def jsonDumps (v : JVal) : List Char := renderV v

/-- Reload one record document (`json.load`), requiring the whole input
to be consumed. -/
def jsonLoads (cs : List Char) : Option JVal :=
  match parseV (cs.length + 1) cs with
  | some (v, []) => some v
  | _ => none

/-- A string `json.dump(ensure_ascii=False)` writes literally. -/
def okChar (c : Char) : Bool := c ≠ '"' && c ≠ '\\' && 32 ≤ c.toNat

mutual

/-- Well-formed documents: float literals carry decimal digits with a
nonempty fractional part, and strings are escape-free. -/
def wfV : JVal → Bool
  | .jnull => true
  | .jint _ => true
  | .jfloat _ _ fr => !fr.isEmpty && fr.all (· < 10)
  | .jstr s => s.all okChar
  | .jarr es => wfElems es
  | .jobj ms => wfMembers ms

def wfElems : List JVal → Bool
  | [] => true
  | e :: es => wfV e && wfElems es

def wfMembers : List (List Char × JVal) → Bool
  | [] => true
  | (k, v) :: ms => k.all okChar && wfV v && wfMembers ms

end

/-- Encoding of a merged record as its cache document, with the keys in
the insertion order of `refresh_index`: the identifying fields and
traceability fields of `temp_rec` (lines 522-531), then one key per
category branch.  The engine/csfile/date strings are fixed by the
module, so they are supplied separately. -/
def encodeCas (cas : List (List Char)) : JVal :=
  match cas with
  | [c] => .jstr c
  | cs => .jarr (cs.map JVal.jstr)

def encodeBranch : OneOrMany JVal → JVal
  | .one p => p
  | .many ps => .jarr ps

def encodeRec (engine csfile date : List Char) (r : Rec JVal) : JVal :=
  .jobj ([(['F', 'C', 'A'], .jstr r.fca),
          (['c', 'i', 'd'], match r.cid with | none => .jnull | some n => .jint n),
          (['C', 'A', 'S'], encodeCas r.cas),
          ("authorized in".data, .jarr (r.authorizedIn.map JVal.jstr)),
          ("ChineseName".data, .jstr r.chineseName),
          ("engine".data, .jstr engine),
          ("csfile".data, .jstr csfile),
          ("date".data, .jstr date)]
     ++ r.branches.map (fun b => (b.1, encodeBranch b.2)))

/-- A remainder that cannot extend a rendered number: empty or headed
by a character that is neither a digit nor a decimal point.  Every
separator the renderer emits after a value (`,`, `]`, `}`, end of
document) qualifies. -/
def delimJ : List Char → Bool
  | [] => true
  | c :: _ => !isDigitC c && c ≠ '.'

/-- Every number in the result is a Python `float`. -/
def resAllFloat : PyRes → Prop
  | .rnone => False
  | .rnum v => v.isFloat = true
  | .rlist vs => ∀ v ∈ vs, v.isFloat = true


/-! # Theorems -/

/-! ## Generic lemmas about the scanners -/

theorem findSome?_exists {α β : Type} {f : α → Option β} {b : β} :
    ∀ {l : List α}, l.findSome? f = some b → ∃ a ∈ l, f a = some b := by
  intro l
  induction l with
  | nil => intro h; simp [List.findSome?] at h
  | cons a t ih =>
      intro h
      rw [List.findSome?_cons] at h
      cases hfa : f a with
      | some b' =>
          rw [hfa] at h
          have h' : some b' = some b := h
          cases h'
          exact ⟨a, List.mem_cons_self a t, hfa⟩
      | none =>
          rw [hfa] at h
          have h' : t.findSome? f = some b := h
          obtain ⟨x, hx, hfx⟩ := ih h'
          exact ⟨x, List.mem_cons_of_mem a hx, hfx⟩

theorem mem_numCandidates_shape {shape : List Char → Bool} {cs tok rest : List Char}
    (h : (tok, rest) ∈ numCandidates shape cs) : shape tok = true := by
  unfold numCandidates at h
  rw [List.mem_filterMap] at h
  obtain ⟨k, _, hk⟩ := h
  by_cases hs : shape (cs.take k) = true
  · simp only [hs, if_true] at hk
    cases hk
    exact hs
  · simp only [hs] at hk
    simp at hk

theorem p2TryAt_shape {kw cs tok after : List Char}
    (h : p2TryAt kw cs = some (tok, after)) : numShapeSigned tok = true := by
  unfold p2TryAt at h
  obtain ⟨td, htd, hf⟩ := findSome?_exists h
  rw [Option.map_eq_some'] at hf
  obtain ⟨r, _, hr⟩ := hf
  cases hr
  exact mem_numCandidates_shape (by simpa using htd)

theorem findallAux_sound {α : Type} {tryAt : List Char → Option (α × List Char)}
    (P : α → Prop) (hP : ∀ cs m after, tryAt cs = some (m, after) → P m) :
    ∀ (fuel : Nat) (cs : List Char) (m : α), m ∈ findallAux tryAt fuel cs → P m := by
  intro fuel
  induction fuel with
  | zero => intro cs m hm; simp [findallAux] at hm
  | succ f ih =>
      intro cs m hm
      cases cs with
      | nil => simp [findallAux] at hm
      | cons c rest =>
          simp only [findallAux] at hm
          cases htry : tryAt (c :: rest) with
          | some p =>
              obtain ⟨m', after⟩ := p
              rw [htry] at hm
              have hm' : m ∈ m' :: findallAux tryAt f after := hm
              rcases List.mem_cons.mp hm' with rfl | hmem
              · exact hP _ _ _ htry
              · exact ih _ _ hmem
          | none =>
              rw [htry] at hm
              have hm' : m ∈ findallAux tryAt f rest := hm
              exact ih _ _ hm'

theorem findallP2_shape {text kw tok : List Char}
    (h : tok ∈ findallP2 text kw) : numShapeSigned tok = true :=
  findallAux_sound (fun t => numShapeSigned t = true)
    (fun _ _ _ hm => p2TryAt_shape hm) _ _ _ h

theorem pyNumOfTok_isFloat (tok : List Char) :
    (pyNumOfTok tok).isFloat = tok.contains '.' := by
  unfold pyNumOfTok
  cases h : tok.contains '.' <;> simp [h, PyNum.isFloat]

/-! ## C4 -/

/-- C4 (amended): the dot-driven int/float policy holds for every token
captured by the keyword-proximity parser `extract_number_before_keyword`
(whose captures always match the signed numeric token shape), and its
results are exactly the converted captures; but on its own (non-fallback)
branch, `extract_number_before_keyword_in_parentheses` converts every
captured token with `float`, so all of its values are floats even for
dot-free tokens. -/
theorem numericTypingPolicy (text kw : List Char) :
    (∀ tok ∈ findallP2 text kw,
        numShapeSigned tok = true ∧ (pyNumOfTok tok).isFloat = tok.contains '.') ∧
    extract_number_before_keyword text kw = unwrapL ((findallP2 text kw).map pyNumOfTok) ∧
    (findallP1 text kw ≠ [] →
        resAllFloat (extract_number_before_keyword_in_parentheses text kw)) := by
  refine ⟨fun tok htok => ⟨findallP2_shape htok, pyNumOfTok_isFloat tok⟩, rfl, ?_⟩
  intro hne
  unfold extract_number_before_keyword_in_parentheses
  cases hl : findallP1 text kw with
  | nil => exact absurd hl hne
  | cons m ms =>
      cases ms with
      | nil => simp [unwrapL, resAllFloat, PyNum.isFloat]
      | cons m2 ms2 =>
          simp only [List.map_cons, unwrapL]
          rw [if_neg (by simp)]
          intro v hv
          simp only [List.mem_cons, List.mem_map] at hv
          rcases hv with rfl | rfl | ⟨x, _, rfl⟩ <;> rfl

/-- Witness for `numericTypingPolicy` at concrete inputs. -/
theorem numericTypingPolicy_witness :
    (numShapeSigned "2".data = true ∧ (pyNumOfTok "2".data).isFloat = ("2".data).contains '.') ∧
    resAllFloat (extract_number_before_keyword_in_parentheses "5(SML)".data "SML".data) :=
  ⟨(numericTypingPolicy "1.5(SML) 2 SML".data "SML".data).1 "2".data (by decide),
   (numericTypingPolicy "5(SML)".data "SML".data).2.2 (by decide)⟩

/-- C4 counterexample: the parenthesised branch converts the dot-free
token `5` to the float `5.0`, not the integer `5` the claim requires. -/
theorem numericTypingPolicy_counterexample :
    extract_number_before_keyword_in_parentheses "5(SML)".data "SML".data
        = .rnum (.pfloat 5) ∧
    PyRes.rnum (.pfloat 5) ≠ .rnum (.pint 5) := by
  exact ⟨by decide, by decide⟩

/-! ## C5 -/

/-- C5: the two spec examples of keyword-qualified limit extraction,
collapse of a singleton to a scalar, the empty result as `None`, and
`None` whenever neither pattern captures anything. -/
theorem limitExtractionExamples :
    extract_number_before_keyword_in_parentheses "0.6(SML) 0.5(again SML)".data "SML".data
        = .rlist [.pfloat (mkRat 3 5), .pfloat (mkRat 1 2)] ∧
    extract_number_before_keyword_in_parentheses "3.4: SML".data "SML".data
        = .rnum (.pfloat (mkRat 17 5)) ∧
    (∀ text kw : List Char, findallP1 text kw = [] → findallP2 text kw = [] →
        extract_number_before_keyword_in_parentheses text kw = .rnone) ∧
    (∀ v : PyNum, unwrapL [v] = .rnum v) ∧
    unwrapL ([] : List PyNum) = .rnone := by
  refine ⟨by decide, by decide, ?_, fun v => rfl, rfl⟩
  intro text kw h1 h2
  unfold extract_number_before_keyword_in_parentheses extract_number_before_keyword
  rw [h1, h2]
  rfl

/-- Witness for `limitExtractionExamples` on keyword-free text. -/
theorem limitExtractionExamples_witness :
    extract_number_before_keyword_in_parentheses "no numeric limit stated".data "SML".data
        = .rnone :=
  limitExtractionExamples.2.2.1 "no numeric limit stated".data "SML".data
    (by decide) (by decide)

/-! ## C9 -/

/-- C9 (amended): `unwrap` sends every falsy input — `0`, `0.0`, `""`,
and also `None` and `[]` — to `None`, so the per-row `QM`/`DL` scalars
come out of their `unwrap` stage as `None` whenever the parsed value is
zero; the stored Record field can nevertheless be non-`None`, because
the second pass (guarded only by `is None`) re-extracts from the raw
cell. -/
theorem unwrapFalsyZero :
    unwrapPy (.onum (.pint 0)) = .onone ∧
    unwrapPy (.onum (.pfloat 0)) = .onone ∧
    unwrapPy (.ostr []) = .onone ∧
    (∀ v : PyNum, pyFalsyNum v = true → unwrapS (some v) = .rnone) ∧
    (∀ x : PyObj, pyFalsyObj x = true → unwrapPy x = .onone) := by
  refine ⟨rfl, rfl, rfl, ?_, ?_⟩
  · intro v hv; simp [unwrapS, hv]
  · intro x hx; simp [unwrapPy, hx]

/-- Witness for `unwrapFalsyZero` at the float zero. -/
theorem unwrapFalsyZero_witness :
    unwrapS (some (.pfloat 0)) = .rnone ∧ unwrapPy (.olist []) = .onone :=
  ⟨unwrapFalsyZero.2.2.2.1 (.pfloat 0) (by decide),
   unwrapFalsyZero.2.2.2.2 (.olist []) (by decide)⟩

/-- C9 counterexample: for the limit cell `0(:QM)` the first pass
parses `QM = 0.0`, `unwrap` nulls it, but the second pass re-extracts
`0.0` from the raw cell, so the stored `QM` is `0.0`, not `None` as the
claim concludes. -/
theorem unwrapFalsyZero_counterexample :
    (parseCol6 "0(:QM)".data).2.1 = .rnum (.pfloat 0) ∧
    (parseCol6 "0(:QM)".data).2.1 ≠ .rnone := by
  exact ⟨by decide, by decide⟩

/-! ## Association-list lemmas -/

theorem alookup_append {V : Type} (k : List Char) (l₂ : List (List Char × V)) :
    ∀ l₁, alookup k (l₁ ++ l₂)
      = (match alookup k l₁ with
         | some v => some v
         | none => alookup k l₂) := by
  intro l₁
  induction l₁ with
  | nil => simp [alookup]
  | cons p t ih =>
      obtain ⟨k', v'⟩ := p
      by_cases h : k' = k <;> simp [alookup, h, ih]

theorem alookup_aset_eq {V : Type} (k : List Char) (v : V) :
    ∀ l, (alookup k l).isSome → alookup k (aset k v l) = some v := by
  intro l
  induction l with
  | nil => intro h; simp [alookup] at h
  | cons p t ih =>
      obtain ⟨k', v'⟩ := p
      intro h
      by_cases hk : k' = k
      · subst hk
        simp [alookup, aset]
      · simp only [aset, if_neg hk, alookup]
        apply ih
        simpa only [alookup, if_neg hk] using h

theorem alookup_aset_ne {V : Type} {k k' : List Char} (v : V) (hne : k' ≠ k) :
    ∀ l, alookup k' (aset k v l) = alookup k' l := by
  intro l
  induction l with
  | nil => simp [alookup, aset]
  | cons p t ih =>
      obtain ⟨k₀, v₀⟩ := p
      have hne' : ¬(k = k') := fun h => hne h.symm
      by_cases hk : k₀ = k
      · subst hk
        simp only [aset, if_pos rfl, alookup]
        rw [if_neg hne', if_neg hne']
      · simp [alookup, aset, hk, ih]

theorem map_fst_aset {V : Type} (k : List Char) (v : V) :
    ∀ l, (aset k v l).map Prod.fst = l.map Prod.fst := by
  intro l
  induction l with
  | nil => rfl
  | cons p t ih =>
      obtain ⟨k₀, v₀⟩ := p
      by_cases hk : k₀ = k <;> simp [aset, hk, ih]

theorem alookup_isSome_iff_mem {V : Type} (k : List Char) :
    ∀ l : List (List Char × V), (alookup k l).isSome ↔ k ∈ l.map Prod.fst := by
  intro l
  induction l with
  | nil => simp [alookup]
  | cons p t ih =>
      obtain ⟨k₀, v₀⟩ := p
      by_cases hk : k₀ = k
      · subst hk
        constructor
        · intro _
          rw [List.map_cons]
          exact List.mem_cons_self _ _
        · intro _
          have hv : alookup k₀ ((k₀, v₀) :: t) = some v₀ := by
            show (if k₀ = k₀ then some v₀ else alookup k₀ t) = some v₀
            exact if_pos rfl
          rw [hv]
          rfl
      · simp only [alookup, if_neg hk, List.map_cons, List.mem_cons]
        rw [ih]
        constructor
        · exact Or.inr
        · rintro (rfl | hmem)
          · exact absurd rfl hk
          · exact hmem

/-! ## `firstSeen` lemmas -/

theorem mem_insNew (acc : List (List Char)) (x y : List Char) :
    y ∈ insNew acc x ↔ y ∈ acc ∨ y = x := by
  unfold insNew
  by_cases h : x ∈ acc
  · simp only [if_pos h]
    constructor
    · exact Or.inl
    · rintro (hy | rfl)
      · exact hy
      · exact h
  · simp [if_neg h]

theorem nodup_insNew (acc : List (List Char)) (x : List Char) (h : acc.Nodup) :
    (insNew acc x).Nodup := by
  unfold insNew
  by_cases hx : x ∈ acc
  · simpa [if_pos hx]
  · simp [if_neg hx, List.nodup_append, h, hx]

theorem mem_foldl_insNew (l : List (List Char)) :
    ∀ (acc : List (List Char)) (y : List Char),
      y ∈ l.foldl insNew acc ↔ y ∈ acc ∨ y ∈ l := by
  induction l with
  | nil => simp
  | cons x t ih =>
      intro acc y
      rw [List.foldl_cons, ih, mem_insNew]
      simp only [List.mem_cons]
      tauto

theorem nodup_foldl_insNew (l : List (List Char)) :
    ∀ acc : List (List Char), acc.Nodup → (l.foldl insNew acc).Nodup := by
  induction l with
  | nil => intro acc h; simpa
  | cons x t ih => intro acc h; exact ih _ (nodup_insNew acc x h)

theorem mem_firstSeen (l : List (List Char)) (y : List Char) :
    y ∈ firstSeen l ↔ y ∈ l := by
  unfold firstSeen
  rw [mem_foldl_insNew]
  simp

theorem nodup_firstSeen (l : List (List Char)) : (firstSeen l).Nodup :=
  nodup_foldl_insNew l [] List.nodup_nil

/-! ## Merge-step invariants (C1) -/

theorem map_fst_mergeStep {π : Type} (st : List (List Char × Rec π)) (row : RowIn π) :
    (mergeStep st row).map Prod.fst = insNew (st.map Prod.fst) row.fca := by
  unfold mergeStep
  cases h : alookup row.fca st with
  | some record =>
      have hmem : row.fca ∈ st.map Prod.fst :=
        (alookup_isSome_iff_mem row.fca st).mp (by simp [h])
      simp [map_fst_aset, insNew, hmem]
  | none =>
      have hmem : row.fca ∉ st.map Prod.fst := by
        rw [← alookup_isSome_iff_mem (V := Rec π) row.fca st, h]
        simp
      simp [insNew, hmem]

theorem alookup_mergeStep_ne {π : Type} {f : List Char} {row : RowIn π}
    (hne : f ≠ row.fca) (st : List (List Char × Rec π)) :
    alookup f (mergeStep st row) = alookup f st := by
  unfold mergeStep
  cases h : alookup row.fca st with
  | some record =>
      exact alookup_aset_ne _ hne st
  | none =>
      rw [alookup_append]
      cases hf : alookup f st with
      | some v => rfl
      | none =>
          simp only [alookup]
          rw [if_neg (fun hh => hne hh.symm)]

theorem mergeRows_keys {π : Type} (rows : List (RowIn π)) :
    ∀ st : List (List Char × Rec π),
      ((rows.foldl mergeStep st).map Prod.fst)
        = (rows.map RowIn.fca).foldl insNew (st.map Prod.fst) := by
  induction rows with
  | nil => intro st; simp
  | cons row t ih =>
      intro st
      rw [List.foldl_cons, ih, List.map_cons, List.foldl_cons, map_fst_mergeStep]

theorem catsOf_cons_eq {π : Type} (row : RowIn π) (rest : List (RowIn π)) :
    catsOf (row :: rest) row.fca = row.tableDesc :: catsOf rest row.fca := by
  simp [catsOf]

theorem catsOf_cons_ne {π : Type} {f : List Char} {row : RowIn π}
    (hne : f ≠ row.fca) (rest : List (RowIn π)) :
    catsOf (row :: rest) f = catsOf rest f := by
  unfold catsOf
  rw [List.filter_cons,
    if_neg (by simp only [decide_eq_true_eq]; exact fun h => hne h.symm)]

theorem mergeRows_authorizedIn {π : Type} (rows : List (RowIn π)) :
    ∀ (st : List (List Char × Rec π)) (f : List Char) (rec : Rec π),
      alookup f (rows.foldl mergeStep st) = some rec →
      rec.authorizedIn
        = (match alookup f st with
           | some r0 => (catsOf rows f).foldl insNew r0.authorizedIn
           | none => firstSeen (catsOf rows f)) := by
  induction rows with
  | nil =>
      intro st f rec h
      simp only [List.foldl_nil] at h
      rw [h]
      simp [catsOf, firstSeen]
  | cons row rest ih =>
      intro st f rec h
      rw [List.foldl_cons] at h
      have key := ih (mergeStep st row) f rec h
      by_cases hf : f = row.fca
      · subst hf
        rw [catsOf_cons_eq]
        cases h0 : alookup row.fca st with
        | some r0 =>
            have hlook : ∃ r2 : Rec π,
                alookup row.fca (mergeStep st row) = some r2 ∧
                r2.authorizedIn = insNew r0.authorizedIn row.tableDesc := by
              unfold mergeStep
              rw [h0]
              refine ⟨_, alookup_aset_eq row.fca _ st (by simp [h0]), ?_⟩
              unfold insNew
              by_cases hmem : row.tableDesc ∈ r0.authorizedIn <;> simp [hmem]
            obtain ⟨r2, hlook2, hauth2⟩ := hlook
            rw [hlook2] at key
            have key' :
                rec.authorizedIn = (catsOf rest row.fca).foldl insNew r2.authorizedIn := key
            exact calc rec.authorizedIn
                _ = (catsOf rest row.fca).foldl insNew r2.authorizedIn := key'
                _ = (catsOf rest row.fca).foldl insNew (insNew r0.authorizedIn row.tableDesc) := by
                      rw [hauth2]
                _ = (row.tableDesc :: catsOf rest row.fca).foldl insNew r0.authorizedIn := by
                      rw [List.foldl_cons]
        | none =>
            have hlook2 : alookup row.fca (mergeStep st row)
                = some { fca := row.fca, cid := row.cid, cas := row.cas,
                         authorizedIn := [row.tableDesc], chineseName := row.chineseName,
                         branches := [(row.tableDesc, .one row.pos)] } := by
              unfold mergeStep
              rw [h0, alookup_append, h0]
              show (if row.fca = row.fca then _ else alookup row.fca []) = _
              rw [if_pos rfl]
            rw [hlook2] at key
            have key' :
                rec.authorizedIn = (catsOf rest row.fca).foldl insNew [row.tableDesc] := key
            exact calc rec.authorizedIn
                _ = (catsOf rest row.fca).foldl insNew [row.tableDesc] := key'
                _ = firstSeen (row.tableDesc :: catsOf rest row.fca) := by
                      simp [firstSeen, insNew]
      · rw [alookup_mergeStep_ne hf] at key
        rw [catsOf_cons_ne hf]
        exact key

/-- C1: the merge is keyed solely by the primary identifier.  The keys
of the merged mapping are the distinct identifiers in first-seen order
(without duplicates, so each identifier owns exactly one record and
different identifiers own different records, whatever the other
fields); and each record's `authorized in` list is the first-seen-order
de-duplication of the categories of that identifier's rows — every
distinct category name appears exactly once. -/
theorem mergeKeyedByPrimaryIdentifier {π : Type} (rows : List (RowIn π)) :
    (mergeRows rows).map Prod.fst = firstSeen (rows.map RowIn.fca) ∧
    ((mergeRows rows).map Prod.fst).Nodup ∧
    (∀ f, f ∈ (mergeRows rows).map Prod.fst ↔ f ∈ rows.map RowIn.fca) ∧
    (∀ f rec, alookup f (mergeRows rows) = some rec →
        rec.authorizedIn = firstSeen (catsOf rows f) ∧
        rec.authorizedIn.Nodup ∧
        (∀ c, c ∈ rec.authorizedIn ↔ c ∈ catsOf rows f)) := by
  have hkeys : (mergeRows rows).map Prod.fst = firstSeen (rows.map RowIn.fca) := by
    unfold mergeRows firstSeen
    rw [mergeRows_keys rows []]
    rfl
  have hnodup : ((mergeRows rows).map Prod.fst).Nodup := by
    rw [hkeys]; exact nodup_firstSeen _
  refine ⟨hkeys, hnodup, ?_, ?_⟩
  · intro f; rw [hkeys, mem_firstSeen]
  · intro f rec h
    have hauth := mergeRows_authorizedIn rows [] f rec (by simpa [mergeRows] using h)
    have hauth' : rec.authorizedIn = firstSeen (catsOf rows f) := hauth
    refine ⟨hauth', ?_, ?_⟩
    · rw [hauth']; exact nodup_firstSeen _
    · intro c; rw [hauth', mem_firstSeen]

/-- Witness for `mergeKeyedByPrimaryIdentifier`: two rows of identifier
`7` in categories `plastics` and `coatings` plus one row of identifier
`8` in `plastics` give two records; record `7` is authorized in both
categories, each once, first-seen order. -/
theorem mergeKeyedByPrimaryIdentifier_witness :
    (mergeRows [⟨"7".data, "plastics".data, none, [], [], ()⟩,
                ⟨"7".data, "coatings".data, none, [], [], ()⟩,
                ⟨"8".data, "plastics".data, none, [], [], ()⟩]).map Prod.fst
        = ["7".data, "8".data] ∧
    (∀ rec, alookup "7".data
        (mergeRows [⟨"7".data, "plastics".data, none, [], [], ()⟩,
                    ⟨"7".data, "coatings".data, none, [], [], ()⟩,
                    ⟨"8".data, "plastics".data, none, [], [], ()⟩]) = some rec →
      rec.authorizedIn = ["plastics".data, "coatings".data]) := by
  constructor
  · have h := (mergeKeyedByPrimaryIdentifier (π := Unit)
      [⟨"7".data, "plastics".data, none, [], [], ()⟩,
       ⟨"7".data, "coatings".data, none, [], [], ()⟩,
       ⟨"8".data, "plastics".data, none, [], [], ()⟩]).1
    rw [h]; decide
  · intro rec hrec
    have h := ((mergeKeyedByPrimaryIdentifier (π := Unit)
      [⟨"7".data, "plastics".data, none, [], [], ()⟩,
       ⟨"7".data, "coatings".data, none, [], [], ()⟩,
       ⟨"8".data, "plastics".data, none, [], [], ()⟩]).2.2.2 "7".data rec hrec).1
    rw [h]; decide

/-! ## The `FCA` index mapping (C7) -/

theorem alookup_fcaIndexStep_ne {f g : List Char} (hne : f ≠ g)
    (st : List (List Char × List (List Char))) :
    alookup f (fcaIndexStep st g) = alookup f st := by
  unfold fcaIndexStep
  cases h : alookup g st with
  | some l => exact alookup_aset_ne _ hne st
  | none =>
      rw [alookup_append]
      cases hf : alookup f st with
      | some v => rfl
      | none =>
          simp only [alookup]
          rw [if_neg (fun hh => hne hh.symm)]

theorem buildFcaIndex_lookup (fcas : List (List Char)) :
    ∀ (st : List (List Char × List (List Char))) (f : List Char),
      alookup f (fcas.foldl fcaIndexStep st)
        = (match alookup f st with
           | some l => some (l ++ List.replicate (fcas.count f) f)
           | none =>
               if fcas.count f = 0 then none
               else some (List.replicate (fcas.count f) f)) := by
  induction fcas with
  | nil =>
      intro st f
      simp only [List.foldl_nil, List.count_nil, List.replicate_zero]
      cases h : alookup f st <;> simp
  | cons g rest ih =>
      intro st f
      rw [List.foldl_cons]
      rw [ih (fcaIndexStep st g) f]
      by_cases hf : f = g
      · subst hf
        have hcount : (f :: rest).count f = rest.count f + 1 := by
          simp [List.count_cons]
        unfold fcaIndexStep
        cases h0 : alookup f st with
        | some l =>
            rw [alookup_aset_eq f (l ++ [f]) st (by simp [h0]), hcount]
            rw [List.replicate_succ']
            simp only [List.append_assoc]
            rw [List.singleton_append, ← List.replicate_succ, List.replicate_succ']
        | none =>
            rw [alookup_append, h0]
            simp only [alookup, if_pos rfl]
            rw [hcount]
            have hr : f :: List.replicate (rest.count f) f
                = List.replicate (rest.count f + 1) f := (List.replicate_succ f _).symm
            simp [hr]
      · have hcount : (g :: rest).count f = rest.count f := by
          simp [List.count_cons, hf]
        rw [alookup_fcaIndexStep_ne hf st, hcount]

/-- C7 (amended): the `FCA` mapping sends an identifier to one copy of
itself per retained row bearing it, so the cardinality equals the
number of such rows — it is `1` exactly when the identifier occurs on a
single row, not always. -/
theorem fcaIndexCardinality (fcas : List (List Char)) :
    ∀ f l, alookup f (buildFcaIndex fcas) = some l →
      l = List.replicate (fcas.count f) f ∧
      l.length = fcas.count f ∧
      (l.length = 1 ↔ fcas.count f = 1) := by
  intro f l h
  rw [buildFcaIndex, buildFcaIndex_lookup fcas [] f] at h
  simp only [alookup] at h
  by_cases hc : fcas.count f = 0
  · rw [if_pos hc] at h; cases h
  · rw [if_neg hc] at h
    have hl : l = List.replicate (fcas.count f) f := by
      cases h; rfl
    refine ⟨hl, by rw [hl, List.length_replicate], by rw [hl, List.length_replicate]⟩

/-- Witness for `fcaIndexCardinality` at a duplicated identifier. -/
theorem fcaIndexCardinality_witness :
    (["7".data, "7".data].count "7".data = 2) ∧
    (∀ l, alookup "7".data (buildFcaIndex ["7".data, "7".data]) = some l → l.length = 2) := by
  refine ⟨by decide, ?_⟩
  intro l h
  have := (fcaIndexCardinality ["7".data, "7".data] "7".data l h).2.1
  rw [this]; decide

/-- C7 counterexample: with the same identifier on two rows the mapped
list has cardinality `2`, not the `1` the claim asserts. -/
theorem fcaIndexCardinality_counterexample :
    (alookup "7".data (buildFcaIndex ["7".data, "7".data])).map List.length = some 2 := by
  decide

/-! ## Slice lookup (C3) -/

/-- C3 (amended): a slice with both integer bounds returns exactly the
identifiers `k` of the order list with `int(start) <= int(k) <
int(stop)`, in ascending numeric order (the order list is numerically
sorted after ingestion); when none falls in the range, it raises a
not-found error whose message shows `start`, `stop - 1`, and the
*lexicographically* smallest and largest identifier strings — these
coincide with the numeric minimum and maximum whenever the identifiers
share one digit width (as with `{1,2,5,9}` or the zero-padded real
data), but not in general. -/
theorem sliceRangeLookup (order : List (List Char)) (start stop : Int)
    (hsorted : List.Sorted (fun a b => pyIntDigits a < pyIntDigits b) order) :
    (∀ l, getitemSlice order start stop = .ok l →
        (∀ k, k ∈ l ↔ k ∈ order ∧ start ≤ pyIntDigits k ∧ pyIntDigits k < stop) ∧
        List.Sorted (fun a b => pyIntDigits a < pyIntDigits b) l) ∧
    (∀ o os, order = o :: os →
        order.filter (fun k =>
            decide (start ≤ pyIntDigits k) && decide (pyIntDigits k < stop)) = [] →
        getitemSlice order start stop
          = .error (.keyErr start (stop - 1) (minLexNE o os) (maxLexNE o os))) := by
  constructor
  · intro l hl
    unfold getitemSlice at hl
    by_cases hemp : (order.filter (fun k =>
        decide (start ≤ pyIntDigits k) && decide (pyIntDigits k < stop))).isEmpty
    · rw [if_pos hemp] at hl
      cases order with
      | nil => cases hl
      | cons o os => cases hl
    · rw [if_neg hemp] at hl
      have hl' : order.filter (fun k =>
          decide (start ≤ pyIntDigits k) && decide (pyIntDigits k < stop)) = l :=
        by cases hl; rfl
      constructor
      · intro k
        rw [← hl', List.mem_filter]
        simp only [Bool.and_eq_true, decide_eq_true_eq]
      · rw [← hl']
        exact hsorted.filter _
  · intro o os horder hfilter
    unfold getitemSlice
    rw [hfilter, horder]
    rfl

/-- Witness for `sliceRangeLookup` over identifiers `{1,2,5,9}`: range
`[2,9)` returns records `2` and `5`; range `[100,200)` raises the
not-found error naming bounds `1` and `9`. -/
theorem sliceRangeLookup_witness :
    (("5".data ∈ ["2".data, "5".data]) ↔
      ("5".data ∈ ["1".data, "2".data, "5".data, "9".data] ∧
        2 ≤ pyIntDigits "5".data ∧ pyIntDigits "5".data < 9)) ∧
    getitemSlice ["1".data, "2".data, "5".data, "9".data] 2 9 = .ok ["2".data, "5".data] ∧
    getitemSlice ["1".data, "2".data, "5".data, "9".data] 100 200
      = .error (.keyErr 100 199 "1".data "9".data) :=
  ⟨((sliceRangeLookup ["1".data, "2".data, "5".data, "9".data] 2 9 (by decide)).1
      ["2".data, "5".data] (by rfl)).1 "5".data,
   by rfl,
   (sliceRangeLookup ["1".data, "2".data, "5".data, "9".data] 100 200 (by decide)).2
      "1".data ["2".data, "5".data, "9".data] rfl (by decide)⟩

/-- C3 counterexample: over the numerically sorted identifiers
`{9,10}`, the empty range `[100,200)` raises an error that names `10`
as the smaller bound and `9` as the larger one (Python `min`/`max` of
strings are lexicographic), not the numeric minimum `9` and maximum
`10` that the claim promises. -/
theorem sliceRangeLookup_counterexample :
    List.Sorted (fun a b => pyIntDigits a < pyIntDigits b) ["9".data, "10".data] ∧
    getitemSlice ["9".data, "10".data] 100 200
      = .error (.keyErr 100 199 "10".data "9".data) ∧
    pyIntDigits "9".data < pyIntDigits "10".data ∧
    "10".data ≠ "9".data := by
  refine ⟨by decide, by rfl, by decide, by decide⟩

/-! ## Open-ended slice (C10) -/

/-- C10: on a nonempty index, a slice whose stop bound is omitted
computes the default stop as a string element of the order list plus
the integer `1`, which raises `TypeError` before any record is
selected; full enumeration through an open-ended slice is therefore
impossible. -/
theorem openEndedSliceTypeError (order : List (List Char)) (start : Int)
    (h : order ≠ []) :
    getitemSliceOpenStop order start = .error .typeErr := by
  cases order with
  | nil => exact absurd rfl h
  | cons o os => rfl

/-- Witness for `openEndedSliceTypeError`. -/
theorem openEndedSliceTypeError_witness :
    getitemSliceOpenStop ["7".data] 0 = .error .typeErr :=
  openEndedSliceTypeError ["7".data] 0 (by decide)

/-! ## Containment check (C8) -/

/-- C8: `__contains__` interprets an integer via its decimal string —
true iff that string is in the order list or among the `bycid` keys; a
string argument via the `CAS` keys; a nonempty list or tuple is reduced
to its first element before the same atom dispatch (so the check never
looks past the first element); every other type — including a list
found as first element — yields false. -/
theorem containsDispatch (ix : GBIndex) :
    (∀ n : Int, containsGB ix (.kint n) = .ok true ↔
        (pyStrOfInt n ∈ ix.order ∨ pyStrOfInt n ∈ ix.bycid)) ∧
    (∀ s, containsGB ix (.kstr s) = .ok true ↔ s ∈ ix.casKeys) ∧
    (∀ x xs, containsGB ix (.klist (x :: xs)) = .ok (containsAtom ix x)) ∧
    (∀ xs ys, containsAtom ix (.klist ys) = false ∧
        containsGB ix (.klist (PyKey.klist ys :: xs)) = .ok false) ∧
    containsGB ix .kother = .ok false := by
  refine ⟨?_, ?_, fun x xs => rfl, fun xs ys => ⟨rfl, rfl⟩, rfl⟩
  · intro n
    show Except.ok (containsAtom ix (.kint n)) = .ok true ↔ _
    rw [Except.ok.injEq]
    simp [containsAtom, List.contains, List.elem_eq_mem]
  · intro s
    show Except.ok (containsAtom ix (.kstr s)) = .ok true ↔ _
    rw [Except.ok.injEq]
    simp [containsAtom, List.contains, List.elem_eq_mem]

/-! ## Usage-range parsing (C6) -/

theorem splitOnC_ne_nil (sep : Char) : ∀ l : List Char, splitOnC sep l ≠ [] := by
  intro l
  induction l with
  | nil => simp [splitOnC]
  | cons c cs ih =>
      simp only [splitOnC]
      by_cases h : c = sep
      · simp [h]
      · rw [if_neg h]
        cases hr : splitOnC sep cs with
        | nil => simp
        | cons hd tl => simp

theorem splitOnC_headI (sep : Char) :
    ∀ l : List Char, (splitOnC sep l).headI = l.takeWhile (· ≠ sep) := by
  intro l
  induction l with
  | nil => rfl
  | cons c cs ih =>
      simp only [splitOnC]
      by_cases h : c = sep
      · subst h
        simp [List.takeWhile_cons]
      · rw [if_neg h]
        cases hr : splitOnC sep cs with
        | nil => exact absurd hr (splitOnC_ne_nil sep cs)
        | cons hd tl =>
            simp only [List.headI, List.takeWhile_cons, decide_eq_true_eq]
            rw [if_pos h]
            have : hd = cs.takeWhile (· ≠ sep) := by
              have := ih
              rw [hr] at this
              exact this
            rw [this]

/-- C6 (amended): the spec's two examples hold; a range field without a
colon yields `CP0max = None` (absence, never zero) with the materials
from the comma split; with a colon, the materials come from the text
left of the *first* colon, and `CP0max` is `float` of the *second
colon-separated field* — the text between the first and second colon,
not everything right of the first colon — times `1e4` (`None` when that
field is not numeric). -/
theorem usageRangeParsing :
    (parseCol5 "plastics:0.5".data).1 = (["plastics".data], some (mkRat 5000 1)) ∧
    (parseCol5 "plastics,coatings".data).1
      = (["plastics".data, "coatings".data], none) ∧
    (∀ cell, (split_col5_content (pyStrip cell)).1.contains ':' = false →
        (parseCol5 cell).1 = (commaSplitStrip (split_col5_content (pyStrip cell)).1, none)) ∧
    (∀ cell rf, rf = (split_col5_content (pyStrip cell)).1 → rf.contains ':' = true →
        (parseCol5 cell).1.1 = commaSplitStrip (rf.takeWhile (· ≠ ':')) ∧
        (parseCol5 cell).1.2
          = (pyFloat (pyStrip ((splitOnC ':' rf).drop 1).headI)).map qTimes1e4) := by
  refine ⟨by decide, by decide, ?_, ?_⟩
  · intro cell h
    have h' : ¬(':' ∈ (split_col5_content (pyStrip cell)).1) := by
      simpa [List.contains, List.elem_eq_mem] using h
    simp [parseCol5, h']
  · intro cell rf hrf h
    subst hrf
    have h' : ':' ∈ (split_col5_content (pyStrip cell)).1 := by
      simpa [List.contains, List.elem_eq_mem] using h
    simp [parseCol5, h', splitOnC_headI]

/-- Witness for `usageRangeParsing` at concrete cells. -/
theorem usageRangeParsing_witness :
    (parseCol5 "a,b".data).1
      = (commaSplitStrip (split_col5_content (pyStrip "a,b".data)).1, none) ∧
    (parseCol5 "a:0.2".data).1.1
      = commaSplitStrip (((split_col5_content (pyStrip "a:0.2".data)).1).takeWhile (· ≠ ':')) :=
  ⟨usageRangeParsing.2.2.1 "a,b".data (by decide),
   (usageRangeParsing.2.2.2 "a:0.2".data _ rfl (by decide)).1⟩

/-- C6 counterexample: for the cell `m:1:2` the text right of the first
colon is `1:2`, which is not numeric, yet the code stores
`CP0max = 10000.0` (from the field `1` between the two colons) rather
than the `None` the claim's reading requires. -/
theorem usageRangeParsing_counterexample :
    (parseCol5 "m:1:2".data).1.2 = some (mkRat 10000 1) ∧
    pyFloat "1:2".data = none ∧
    ("m:1:2".data).takeWhile (· ≠ ':') = "m".data := by
  refine ⟨by decide, by decide, by decide⟩

/-! ## Persistence round trip (C2): decoding lemmas -/

theorem takeWhile_append_of {p : Char → Bool} :
    ∀ l1 l2 : List Char, (∀ c ∈ l1, p c = true) →
      (∀ c, l2.head? = some c → p c = false) →
      (l1 ++ l2).takeWhile p = l1 ∧ (l1 ++ l2).dropWhile p = l2 := by
  intro l1
  induction l1 with
  | nil =>
      intro l2 _ h2
      cases l2 with
      | nil => exact ⟨rfl, rfl⟩
      | cons c t =>
          have hc := h2 c rfl
          simp [List.takeWhile_cons, List.dropWhile_cons, hc]
  | cons a l1 ih =>
      intro l2 h1 h2
      have ha : p a = true := h1 a (List.mem_cons_self a l1)
      have ht := ih l2 (fun c hc => h1 c (List.mem_cons_of_mem a hc)) h2
      simp [List.takeWhile_cons, List.dropWhile_cons, ha, ht.1, ht.2]

theorem isDigitC_digitChar {d : Nat} (h : d < 10) : isDigitC (digitChar d) = true := by
  interval_cases d <;> rfl

theorem digitVal_digitChar {d : Nat} (h : d < 10) : digitVal (digitChar d) = d := by
  interval_cases d <;> rfl

theorem natCharsAux_all_digit :
    ∀ (fuel n : Nat), ∀ c ∈ natCharsAux fuel n, isDigitC c = true := by
  intro fuel
  induction fuel with
  | zero => intro n c hc; simp [natCharsAux] at hc
  | succ f ih =>
      intro n c hc
      unfold natCharsAux at hc
      by_cases h : n < 10
      · rw [if_pos h] at hc
        rw [List.mem_singleton] at hc
        subst hc
        exact isDigitC_digitChar h
      · rw [if_neg h] at hc
        rw [List.mem_append] at hc
        rcases hc with hc | hc
        · exact ih (n / 10) c hc
        · rw [List.mem_singleton] at hc
          subst hc
          exact isDigitC_digitChar (Nat.mod_lt n (by norm_num))

theorem natChars_all_digit (n : Nat) : ∀ c ∈ natChars n, isDigitC c = true :=
  natCharsAux_all_digit (n + 1) n

theorem natCharsAux_ne_nil (fuel n : Nat) (h : 1 ≤ fuel) :
    natCharsAux fuel n ≠ [] := by
  cases fuel with
  | zero => omega
  | succ f =>
      unfold natCharsAux
      by_cases hn : n < 10
      · simp [hn]
      · rw [if_neg hn]
        simp

theorem natChars_ne_nil (n : Nat) : natChars n ≠ [] :=
  natCharsAux_ne_nil (n + 1) n (by omega)

theorem natChars_cons (n : Nat) :
    ∃ c t, natChars n = c :: t ∧ isDigitC c = true := by
  cases h : natChars n with
  | nil => exact absurd h (natChars_ne_nil n)
  | cons c t =>
      exact ⟨c, t, rfl, natChars_all_digit n c (h ▸ List.mem_cons_self c t)⟩

theorem foldl_digits_acc (ds : List Nat) :
    ∀ a : Nat, (∀ d ∈ ds, d < 10) →
      List.foldl (fun x c => x * 10 + (c.toNat - 48)) a (ds.map digitChar)
        = List.foldl (fun x d => x * 10 + d) a ds := by
  induction ds with
  | nil => intro a _; rfl
  | cons d t ih =>
      intro a h
      have hd : d < 10 := h d (List.mem_cons_self d t)
      rw [List.map_cons, List.foldl_cons, List.foldl_cons]
      have : (digitChar d).toNat - 48 = d := digitVal_digitChar hd
      rw [this]
      exact ih _ (fun x hx => h x (List.mem_cons_of_mem d hx))

theorem foldl_base10 (ds : List Nat) :
    ∀ a : Nat, List.foldl (fun x d => x * 10 + d) a ds
      = a * 10 ^ ds.length + Nat.ofDigits 10 ds.reverse := by
  induction ds with
  | nil => intro a; simp [Nat.ofDigits]
  | cons d t ih =>
      intro a
      rw [List.foldl_cons, ih, List.reverse_cons, Nat.ofDigits_append]
      simp only [List.length_cons, List.length_reverse, Nat.ofDigits_singleton]
      ring

theorem natOfDigits_append_digit (xs : List Char) (c : Char) :
    natOfDigits (xs ++ [c]) = natOfDigits xs * 10 + (c.toNat - 48) := by
  unfold natOfDigits
  rw [List.foldl_append]
  rfl

theorem natOfDigits_natCharsAux :
    ∀ (fuel n : Nat), n < 10 ^ fuel → natOfDigits (natCharsAux fuel n) = n := by
  intro fuel
  induction fuel with
  | zero =>
      intro n h
      have h0 : n = 0 := by simpa using h
      subst h0
      rfl
  | succ f ih =>
      intro n h
      unfold natCharsAux
      by_cases hn : n < 10
      · rw [if_pos hn]
        show 0 * 10 + ((digitChar n).toNat - 48) = n
        have := digitVal_digitChar hn
        unfold digitVal at this
        omega
      · rw [if_neg hn]
        rw [natOfDigits_append_digit]
        have hdiv : n / 10 < 10 ^ f := by
          rw [Nat.div_lt_iff_lt_mul (by norm_num)]
          calc n < 10 ^ (f + 1) := h
            _ = 10 ^ f * 10 := by ring
        rw [ih (n / 10) hdiv]
        have hmod := digitVal_digitChar (Nat.mod_lt n (show 0 < 10 by norm_num))
        unfold digitVal at hmod
        omega

theorem natOfDigits_natChars (n : Nat) : natOfDigits (natChars n) = n :=
  natOfDigits_natCharsAux (n + 1) n (by
    calc n < n + 1 := by omega
      _ ≤ 10 ^ (n + 1) := by
          induction n with
          | zero => norm_num
          | succ m ihm =>
              have : 10 ^ (m + 1) < 10 ^ (m + 2) :=
                Nat.pow_lt_pow_right (by norm_num) (by omega)
              omega)

theorem parseStrBody_append (s : List Char) :
    ∀ rest, (∀ c ∈ s, c ≠ '"') →
      parseStrBody (s ++ '"' :: rest) = some (s, rest) := by
  induction s with
  | nil => intro rest _; simp [parseStrBody]
  | cons c t ih =>
      intro rest h
      have hc : c ≠ '"' := h c (List.mem_cons_self c t)
      rw [List.cons_append]
      unfold parseStrBody
      rw [if_neg hc, ih rest (fun x hx => h x (List.mem_cons_of_mem c hx))]
      rfl

theorem delimJ_head {c : Char} {t : List Char} (h : delimJ (c :: t) = true) :
    isDigitC c = false ∧ c ≠ '.' := by
  simp only [delimJ, Bool.and_eq_true, Bool.not_eq_true', decide_eq_true_eq] at h
  exact h

theorem delimJ_rest_head {rest : List Char} (hr : delimJ rest = true) :
    ∀ c, rest.head? = some c → isDigitC c = false := by
  intro c hc
  cases rest with
  | nil => cases hc
  | cons r rs =>
      cases hc
      exact (delimJ_head hr).1

theorem digit_ne_chars {c : Char} (h : isDigitC c = true) :
    c ≠ '-' ∧ c ≠ '.' ∧ c ≠ 'n' ∧ c ≠ '"' ∧ c ≠ '[' ∧ c ≠ '{' ∧
    c ≠ ']' ∧ c ≠ '}' ∧ c ≠ ',' := by
  refine ⟨?_, ?_, ?_, ?_, ?_, ?_, ?_, ?_, ?_⟩ <;>
    (intro heq; rw [heq] at h; exact absurd h (by decide))

theorem parseNumTail_int (neg : Bool) (m : Nat) (rest : List Char)
    (hr : delimJ rest = true) :
    parseNumTail neg (natChars m ++ rest)
      = some (.jint (if neg then -(m : Int) else (m : Int)), rest) := by
  have htw := takeWhile_append_of (p := isDigitC) (natChars m) rest
    (natChars_all_digit m) (delimJ_rest_head hr)
  unfold parseNumTail
  simp only [htw.1, htw.2]
  rw [if_neg (natChars_ne_nil m)]
  cases rest with
  | nil => simp [natOfDigits_natChars]
  | cons r rs =>
      have hrd := delimJ_head hr
      rw [if_neg (by simpa [List.head?] using hrd.2)]
      simp [natOfDigits_natChars]

theorem parseNumTail_float (neg : Bool) (m : Nat) (fr : List Nat) (rest : List Char)
    (hfr : fr ≠ []) (hfd : ∀ d ∈ fr, d < 10) (hr : delimJ rest = true) :
    parseNumTail neg (natChars m ++ '.' :: (fr.map digitChar ++ rest))
      = some (.jfloat neg m fr, rest) := by
  have htw := takeWhile_append_of (p := isDigitC) (natChars m)
    ('.' :: (fr.map digitChar ++ rest)) (natChars_all_digit m)
    (by intro c hc; cases hc; decide)
  have htw2 := takeWhile_append_of (p := isDigitC) (fr.map digitChar) rest
    (by intro c hc
        rw [List.mem_map] at hc
        obtain ⟨d, hd, rfl⟩ := hc
        exact isDigitC_digitChar (hfd d hd))
    (delimJ_rest_head hr)
  unfold parseNumTail
  simp only [htw.1, htw.2]
  rw [if_neg (natChars_ne_nil m), if_pos (by rfl)]
  simp only [List.tail_cons, htw2.1, htw2.2]
  rw [if_neg (by simpa using hfr)]
  rw [natOfDigits_natChars]
  have hmap : (fr.map digitChar).map digitVal = fr := by
    rw [List.map_map]
    have : ∀ d ∈ fr, (digitVal ∘ digitChar) d = id d := by
      intro d hd
      simp [Function.comp, digitVal_digitChar (hfd d hd)]
    rw [List.map_congr_left this, List.map_id]
  rw [hmap]

theorem parseNumJ_int (n : Int) (rest : List Char) (hr : delimJ rest = true) :
    parseNumJ (intChars n ++ rest) = some (.jint n, rest) := by
  unfold intChars
  by_cases hn : n < 0
  · rw [if_pos hn]
    show parseNumJ ('-' :: (natChars n.natAbs ++ rest)) = _
    unfold parseNumJ
    rw [if_pos (by rfl), List.tail_cons, parseNumTail_int true n.natAbs rest hr]
    have h2 : -((n.natAbs : Nat) : Int) = n := by omega
    show some (JVal.jint (-((n.natAbs : Nat) : Int)), rest) = some (JVal.jint n, rest)
    rw [h2]
  · rw [if_neg hn]
    obtain ⟨c0, t0, h0, hc0⟩ := natChars_cons n.natAbs
    rw [h0, List.cons_append]
    unfold parseNumJ
    rw [if_neg (by simpa [List.head?] using (digit_ne_chars hc0).1),
      ← List.cons_append, ← h0, parseNumTail_int false n.natAbs rest hr]
    have h2 : ((n.natAbs : Nat) : Int) = n := by omega
    show some (JVal.jint ((n.natAbs : Nat) : Int), rest) = some (JVal.jint n, rest)
    rw [h2]

theorem parseNumJ_float (neg : Bool) (m : Nat) (fr : List Nat) (rest : List Char)
    (hfr : fr ≠ []) (hfd : ∀ d ∈ fr, d < 10) (hr : delimJ rest = true) :
    parseNumJ (((if neg then ['-'] else []) ++ natChars m ++ '.' :: fr.map digitChar) ++ rest)
      = some (.jfloat neg m fr, rest) := by
  cases neg with
  | true =>
      show parseNumJ ('-' :: (natChars m ++ '.' :: fr.map digitChar ++ rest)) = _
      unfold parseNumJ
      rw [if_pos (by rfl), List.tail_cons]
      have harr : natChars m ++ '.' :: fr.map digitChar ++ rest
          = natChars m ++ '.' :: (fr.map digitChar ++ rest) := by
        simp [List.append_assoc]
      rw [harr, parseNumTail_float true m fr rest hfr hfd hr]
  | false =>
      obtain ⟨c0, t0, h0, hc0⟩ := natChars_cons m
      have harr : ((if false then ['-'] else []) ++ natChars m ++ '.' :: fr.map digitChar) ++ rest
          = c0 :: (t0 ++ '.' :: (fr.map digitChar ++ rest)) := by
        simp [h0, List.append_assoc]
      rw [harr]
      unfold parseNumJ
      rw [if_neg (by simpa [List.head?] using (digit_ne_chars hc0).1)]
      have harr2 : c0 :: (t0 ++ '.' :: (fr.map digitChar ++ rest))
          = natChars m ++ '.' :: (fr.map digitChar ++ rest) := by
        simp [h0]
      rw [harr2, parseNumTail_float false m fr rest hfr hfd hr]

theorem natChars_head_ne (m : Nat) :
    ∃ c t, natChars m = c :: t ∧ c ≠ 'n' ∧ c ≠ '"' ∧ c ≠ '[' ∧ c ≠ '{' ∧
      c ≠ ']' ∧ c ≠ '}' ∧ c ≠ ',' ∧ c ≠ '-' := by
  obtain ⟨c, t, h0, hc⟩ := natChars_cons m
  have hd := digit_ne_chars hc
  exact ⟨c, t, h0, hd.2.2.1, hd.2.2.2.1, hd.2.2.2.2.1, hd.2.2.2.2.2.1,
    hd.2.2.2.2.2.2.1, hd.2.2.2.2.2.2.2.1, hd.2.2.2.2.2.2.2.2, hd.1⟩

theorem renderV_head (v : JVal) :
    ∃ c t, renderV v = c :: t ∧ c ≠ ']' ∧ c ≠ '}' ∧ c ≠ ',' := by
  cases v with
  | jnull => exact ⟨'n', _, rfl, by decide, by decide, by decide⟩
  | jint n =>
      show ∃ c t, intChars n = c :: t ∧ _
      unfold intChars
      by_cases hn : n < 0
      · rw [if_pos hn]
        exact ⟨'-', _, rfl, by decide, by decide, by decide⟩
      · rw [if_neg hn]
        obtain ⟨c, t, h0, hc⟩ := natChars_cons n.natAbs
        have hd := digit_ne_chars hc
        exact ⟨c, t, h0, hd.2.2.2.2.2.2.1, hd.2.2.2.2.2.2.2.1, hd.2.2.2.2.2.2.2.2⟩
  | jfloat neg ip fr =>
      cases neg with
      | true => exact ⟨'-', _, rfl, by decide, by decide, by decide⟩
      | false =>
          obtain ⟨c, t, h0, hc⟩ := natChars_cons ip
          have hd := digit_ne_chars hc
          refine ⟨c, t ++ '.' :: fr.map digitChar, ?_,
            hd.2.2.2.2.2.2.1, hd.2.2.2.2.2.2.2.1, hd.2.2.2.2.2.2.2.2⟩
          show (if false then ['-'] else []) ++ natChars ip ++ '.' :: fr.map digitChar = _
          rw [if_neg (by simp)]
          rw [List.nil_append, h0, List.cons_append]
  | jstr s => exact ⟨'"', _, rfl, by decide, by decide, by decide⟩
  | jarr es => exact ⟨'[', _, rfl, by decide, by decide, by decide⟩
  | jobj ms => exact ⟨'{', _, rfl, by decide, by decide, by decide⟩

theorem renderElems_cons (e : JVal) (es : List JVal) :
    ∃ tail, renderElems (e :: es) = renderV e ++ tail := by
  cases es with
  | nil => exact ⟨[']'], rfl⟩
  | cons e2 es2 => exact ⟨',' :: renderElems (e2 :: es2), rfl⟩

theorem renderMembers_cons (k : List Char) (v : JVal) (ms : List (List Char × JVal)) :
    ∃ tail, renderMembers ((k, v) :: ms) = '"' :: (k ++ '"' :: ':' :: (renderV v ++ tail)) := by
  cases ms with
  | nil => exact ⟨['}'], rfl⟩
  | cons m2 ms2 => exact ⟨',' :: renderMembers (m2 :: ms2), rfl⟩

/-- One-step unfolding of `parseV` at successor fuel (definitional). -/
theorem parseV_succ (fuel : Nat) (cs : List Char) :
    parseV (fuel + 1) cs
      = (match cs with
         | 'n' :: 'u' :: 'l' :: 'l' :: r => some (.jnull, r)
         | '"' :: r => (parseStrBody r).map (fun p => (.jstr p.1, p.2))
         | '[' :: ']' :: r => some (.jarr [], r)
         | '[' :: r => (parseElems fuel r).map (fun p => (.jarr p.1, p.2))
         | '{' :: '}' :: r => some (.jobj [], r)
         | '{' :: r => (parseMembers fuel r).map (fun p => (.jobj p.1, p.2))
         | _ => parseNumJ cs) := rfl

/-- A value whose input starts with none of the structural openers
parses through `parseNumJ`. -/
theorem parseV_num_dispatch (fuel : Nat) (c : Char) (t : List Char)
    (hn : c ≠ 'n') (hq : c ≠ '"') (hb : c ≠ '[') (hc : c ≠ '{') :
    parseV (fuel + 1) (c :: t) = parseNumJ (c :: t) := by
  rw [parseV_succ]
  split <;> simp_all

/-- The array branch with a nonempty element list reduces to
`parseElems` (the rendered first element never starts with `]`). -/
theorem parseV_arr_dispatch (fuel : Nat) (e : JVal) (es : List JVal) (rest : List Char) :
    parseV (fuel + 1) ('[' :: (renderElems (e :: es) ++ rest))
      = (parseElems fuel (renderElems (e :: es) ++ rest)).map (fun p => (.jarr p.1, p.2)) := by
  obtain ⟨c, t, hren, hbr, _, _⟩ := renderV_head e
  obtain ⟨tail, htail⟩ := renderElems_cons e es
  have hcons : renderElems (e :: es) ++ rest = c :: (t ++ tail ++ rest) := by
    rw [htail, hren]
    simp [List.append_assoc]
  rw [hcons, parseV_succ]
  split <;> simp_all

/-- The object branch with a nonempty member list reduces to
`parseMembers` (the rendered first member starts with a key's `"`). -/
theorem parseV_obj_dispatch (fuel : Nat) (k : List Char) (v : JVal)
    (ms : List (List Char × JVal)) (rest : List Char) :
    parseV (fuel + 1) ('{' :: (renderMembers ((k, v) :: ms) ++ rest))
      = (parseMembers fuel (renderMembers ((k, v) :: ms) ++ rest)).map
          (fun p => (.jobj p.1, p.2)) := by
  obtain ⟨tail, htail⟩ := renderMembers_cons k v ms
  have hcons : renderMembers ((k, v) :: ms) ++ rest
      = '"' :: (k ++ '"' :: ':' :: (renderV v ++ tail) ++ rest) := by
    rw [htail]
    simp [List.append_assoc]
  rw [hcons, parseV_succ]
  split <;> simp_all

theorem intChars_head (n : Int) :
    ∃ c t, intChars n = c :: t ∧ c ≠ 'n' ∧ c ≠ '"' ∧ c ≠ '[' ∧ c ≠ '{' := by
  unfold intChars
  by_cases hn : n < 0
  · rw [if_pos hn]
    exact ⟨'-', _, rfl, by decide, by decide, by decide, by decide⟩
  · rw [if_neg hn]
    obtain ⟨c, t, h0, hn', hq, hb, hc, _, _, _, _⟩ := natChars_head_ne n.natAbs
    exact ⟨c, t, h0, hn', hq, hb, hc⟩

theorem renderFloatBody_head (neg : Bool) (ip : Nat) (fr : List Nat) :
    ∃ c t, (if neg then ['-'] else []) ++ natChars ip ++ '.' :: fr.map digitChar = c :: t ∧
      c ≠ 'n' ∧ c ≠ '"' ∧ c ≠ '[' ∧ c ≠ '{' := by
  cases neg with
  | true => exact ⟨'-', _, rfl, by decide, by decide, by decide, by decide⟩
  | false =>
      obtain ⟨c, t, h0, hn, hq, hb, hc, _, _, _, _⟩ := natChars_head_ne ip
      refine ⟨c, t ++ '.' :: fr.map digitChar, ?_, hn, hq, hb, hc⟩
      rw [if_neg (by simp), List.nil_append, h0, List.cons_append]

theorem okChar_ne_quote {c : Char} (h : okChar c = true) : c ≠ '"' := by
  intro heq
  rw [heq] at h
  exact absurd h (by decide)

theorem wfStr_ne_quote {s : List Char} (h : s.all okChar = true) :
    ∀ c ∈ s, c ≠ '"' := by
  intro c hc
  rw [List.all_eq_true] at h
  exact okChar_ne_quote (h c hc)

/-- One-step unfolding of `parseElems` at successor fuel (definitional). -/
theorem parseElems_succ (fuel : Nat) (cs : List Char) :
    parseElems (fuel + 1) cs
      = (match parseV fuel cs with
         | none => none
         | some (v, r) =>
             match r with
             | ',' :: r2 => (parseElems fuel r2).map (fun p => (v :: p.1, p.2))
             | ']' :: r2 => some ([v], r2)
             | _ => none) := rfl

/-- One-step unfolding of `parseMembers` at successor fuel (definitional). -/
theorem parseMembers_succ (fuel : Nat) (cs : List Char) :
    parseMembers (fuel + 1) cs
      = (match cs with
         | '"' :: r =>
             match parseStrBody r with
             | none => none
             | some (k, r1) =>
                 match r1 with
                 | ':' :: r2 =>
                     match parseV fuel r2 with
                     | none => none
                     | some (v, r3) =>
                         match r3 with
                         | ',' :: r4 => (parseMembers fuel r4).map (fun p => ((k, v) :: p.1, p.2))
                         | '}' :: r4 => some ([(k, v)], r4)
                         | _ => none
                 | _ => none
         | _ => none) := rfl

mutual

theorem rtV : ∀ (v : JVal) (fuel : Nat) (rest : List Char),
    wfV v = true → (renderV v).length < fuel → delimJ rest = true →
    parseV fuel (renderV v ++ rest) = some (v, rest)
  | v, 0, rest, _, hf, _ => absurd hf (Nat.not_lt_zero _)
  | .jnull, fuel + 1, rest, _, _, _ => rfl
  | .jint n, fuel + 1, rest, _, _, hr => by
      obtain ⟨c, t, hct, hn, hq, hb, hc'⟩ := intChars_head n
      have harr : renderV (.jint n) ++ rest = c :: (t ++ rest) := by
        show intChars n ++ rest = _
        rw [hct, List.cons_append]
      rw [harr, parseV_num_dispatch fuel c (t ++ rest) hn hq hb hc', ← harr]
      show parseNumJ (intChars n ++ rest) = _
      exact parseNumJ_int n rest hr
  | .jfloat neg ip fr, fuel + 1, rest, hwf, _, hr => by
      have hwf' : fr.isEmpty = false ∧ ∀ d ∈ fr, d < 10 := by
        simpa [wfV, List.all_eq_true] using hwf
      have hfr : fr ≠ [] := by
        intro h
        rw [h] at hwf'
        exact absurd hwf'.1 (by decide)
      obtain ⟨c, t, hct, hn, hq, hb, hc'⟩ := renderFloatBody_head neg ip fr
      have harr : renderV (.jfloat neg ip fr) ++ rest = c :: (t ++ rest) := by
        show ((if neg then ['-'] else []) ++ natChars ip ++ '.' :: fr.map digitChar) ++ rest = _
        rw [hct, List.cons_append]
      rw [harr, parseV_num_dispatch fuel c (t ++ rest) hn hq hb hc', ← harr]
      show parseNumJ (((if neg then ['-'] else []) ++ natChars ip ++ '.' :: fr.map digitChar)
        ++ rest) = _
      exact parseNumJ_float neg ip fr rest hfr hwf'.2 hr
  | .jstr s, fuel + 1, rest, hwf, _, _ => by
      have hs : ∀ c ∈ s, c ≠ '"' := wfStr_ne_quote (by simpa [wfV] using hwf)
      have harr : renderV (.jstr s) ++ rest = '"' :: (s ++ '"' :: rest) := by
        show ('"' :: (s ++ ['"'])) ++ rest = _
        simp [List.append_assoc]
      rw [harr, parseV_succ]
      show (parseStrBody (s ++ '"' :: rest)).map _ = _
      rw [parseStrBody_append s rest hs]
      rfl
  | .jarr [], fuel + 1, rest, _, _, _ => rfl
  | .jarr (e :: es), fuel + 1, rest, hwf, hf, _ => by
      have hwfe : wfElems (e :: es) = true := hwf
      have hlen : (renderElems (e :: es)).length < fuel := by
        have h1 : (renderV (.jarr (e :: es))).length = (renderElems (e :: es)).length + 1 := by
          show ('[' :: renderElems (e :: es)).length = _
          simp
        omega
      have harr : renderV (.jarr (e :: es)) ++ rest = '[' :: (renderElems (e :: es) ++ rest) := by
        show ('[' :: renderElems (e :: es)) ++ rest = _
        rw [List.cons_append]
      rw [harr, parseV_arr_dispatch, rtElems e es fuel rest hwfe hlen]
      rfl
  | .jobj [], fuel + 1, rest, _, _, _ => rfl
  | .jobj ((k, v) :: ms), fuel + 1, rest, hwf, hf, _ => by
      have hwfm : wfMembers ((k, v) :: ms) = true := hwf
      have hlen : (renderMembers ((k, v) :: ms)).length < fuel := by
        have h1 : (renderV (.jobj ((k, v) :: ms))).length
            = (renderMembers ((k, v) :: ms)).length + 1 := by
          show ('{' :: renderMembers ((k, v) :: ms)).length = _
          simp
        omega
      have harr : renderV (.jobj ((k, v) :: ms)) ++ rest
          = '{' :: (renderMembers ((k, v) :: ms) ++ rest) := by
        show ('{' :: renderMembers ((k, v) :: ms)) ++ rest = _
        rw [List.cons_append]
      rw [harr, parseV_obj_dispatch, rtMembers k v ms fuel rest hwfm hlen]
      rfl
  termination_by v _ _ _ _ _ => sizeOf v

theorem rtElems : ∀ (e : JVal) (es : List JVal) (fuel : Nat) (rest : List Char),
    wfElems (e :: es) = true → (renderElems (e :: es)).length < fuel →
    parseElems fuel (renderElems (e :: es) ++ rest) = some (e :: es, rest)
  | e, es, 0, rest, _, hf => absurd hf (Nat.not_lt_zero _)
  | e, [], fuel + 1, rest, hwf, hf => by
      have hwfv : wfV e = true := by simpa [wfElems] using hwf
      have hfe : (renderV e).length < fuel := by
        have h1 : (renderElems [e]).length = (renderV e).length + 1 := by
          show (renderV e ++ [']']).length = _
          simp
        omega
      have hv := rtV e fuel (']' :: rest) hwfv hfe (by rfl)
      have harr : renderElems [e] ++ rest = renderV e ++ ']' :: rest := by
        show (renderV e ++ [']']) ++ rest = _
        simp [List.append_assoc]
      rw [harr, parseElems_succ, hv]
      rfl
  | e, e2 :: es2, fuel + 1, rest, hwf, hf => by
      simp only [wfElems, Bool.and_eq_true] at hwf
      have hwfv : wfV e = true := hwf.1
      have hwfe2 : wfElems (e2 :: es2) = true := by
        simp only [wfElems, Bool.and_eq_true]
        exact hwf.2
      have hlen : (renderElems (e :: e2 :: es2)).length
          = (renderV e).length + 1 + (renderElems (e2 :: es2)).length := by
        show (renderV e ++ ',' :: renderElems (e2 :: es2)).length = _
        simp
        omega
      have hfe : (renderV e).length < fuel := by omega
      have hfx : (renderElems (e2 :: es2)).length < fuel := by omega
      have hv := rtV e fuel (',' :: (renderElems (e2 :: es2) ++ rest)) hwfv hfe (by rfl)
      have key := rtElems e2 es2 fuel rest hwfe2 hfx
      have harr : renderElems (e :: e2 :: es2) ++ rest
          = renderV e ++ ',' :: (renderElems (e2 :: es2) ++ rest) := by
        show (renderV e ++ ',' :: renderElems (e2 :: es2)) ++ rest = _
        simp [List.append_assoc]
      rw [harr, parseElems_succ, hv]
      show (parseElems fuel (renderElems (e2 :: es2) ++ rest)).map _ = _
      rw [key]
      rfl
  termination_by e es _ _ _ _ => sizeOf e + sizeOf es

theorem rtMembers : ∀ (k : List Char) (v : JVal) (ms : List (List Char × JVal))
    (fuel : Nat) (rest : List Char),
    wfMembers ((k, v) :: ms) = true → (renderMembers ((k, v) :: ms)).length < fuel →
    parseMembers fuel (renderMembers ((k, v) :: ms) ++ rest) = some ((k, v) :: ms, rest)
  | k, v, ms, 0, rest, _, hf => absurd hf (Nat.not_lt_zero _)
  | k, v, [], fuel + 1, rest, hwf, hf => by
      have hwf' : k.all okChar = true ∧ wfV v = true := by
        simp only [wfMembers, Bool.and_eq_true] at hwf
        exact ⟨hwf.1.1, hwf.1.2⟩
      have hk := wfStr_ne_quote hwf'.1
      have hlen : (renderMembers [(k, v)]).length
          = k.length + 3 + (renderV v).length + 1 := by
        show ('"' :: (k ++ '"' :: ':' :: (renderV v ++ ['}']))).length = _
        simp
        omega
      have hfv : (renderV v).length < fuel := by omega
      have hv := rtV v fuel ('}' :: rest) hwf'.2 hfv (by rfl)
      have harr : renderMembers [(k, v)] ++ rest
          = '"' :: (k ++ '"' :: ':' :: (renderV v ++ '}' :: rest)) := by
        show ('"' :: (k ++ '"' :: ':' :: (renderV v ++ ['}']))) ++ rest = _
        simp [List.append_assoc]
      rw [harr, parseMembers_succ]
      show (match parseStrBody (k ++ '"' :: (':' :: (renderV v ++ '}' :: rest))) with
            | none => none
            | some (k', r1) =>
                match r1 with
                | ':' :: r2 =>
                    match parseV fuel r2 with
                    | none => none
                    | some (v', r3) =>
                        match r3 with
                        | ',' :: r4 =>
                            (parseMembers fuel r4).map (fun p : List (List Char × JVal) × List Char => ((k', v') :: p.1, p.2))
                        | '}' :: r4 => some ([(k', v')], r4)
                        | _ => none
                | _ => none) = _
      rw [parseStrBody_append k (':' :: (renderV v ++ '}' :: rest)) hk]
      show (match parseV fuel (renderV v ++ '}' :: rest) with
            | none => none
            | some (v', r3) =>
                match r3 with
                | ',' :: r4 => (parseMembers fuel r4).map (fun p : List (List Char × JVal) × List Char => ((k, v') :: p.1, p.2))
                | '}' :: r4 => some ([(k, v')], r4)
                | _ => none) = _
      rw [hv]
      rfl
  | k, v, (k2, v2) :: ms2, fuel + 1, rest, hwf, hf => by
      have hwf' : k.all okChar = true ∧ wfV v = true
          ∧ wfMembers ((k2, v2) :: ms2) = true := by
        simp only [wfMembers, Bool.and_eq_true] at hwf
        refine ⟨hwf.1.1, hwf.1.2, ?_⟩
        simp only [wfMembers, Bool.and_eq_true]
        exact hwf.2
      have hk := wfStr_ne_quote hwf'.1
      have hlen : (renderMembers ((k, v) :: (k2, v2) :: ms2)).length
          = k.length + 3 + (renderV v).length + 1
            + (renderMembers ((k2, v2) :: ms2)).length := by
        show ('"' :: (k ++ '"' :: ':' :: (renderV v ++ ',' ::
          renderMembers ((k2, v2) :: ms2)))).length = _
        simp
        omega
      have hfv : (renderV v).length < fuel := by omega
      have hfm : (renderMembers ((k2, v2) :: ms2)).length < fuel := by omega
      have hv := rtV v fuel (',' :: (renderMembers ((k2, v2) :: ms2) ++ rest))
        hwf'.2.1 hfv (by rfl)
      have key := rtMembers k2 v2 ms2 fuel rest hwf'.2.2 hfm
      have harr : renderMembers ((k, v) :: (k2, v2) :: ms2) ++ rest
          = '"' :: (k ++ '"' :: ':' :: (renderV v ++ ',' ::
              (renderMembers ((k2, v2) :: ms2) ++ rest))) := by
        show ('"' :: (k ++ '"' :: ':' :: (renderV v ++ ',' ::
          renderMembers ((k2, v2) :: ms2)))) ++ rest = _
        simp [List.append_assoc]
      rw [harr, parseMembers_succ]
      show (match parseStrBody (k ++ '"' :: (':' :: (renderV v ++ ',' ::
              (renderMembers ((k2, v2) :: ms2) ++ rest)))) with
            | none => none
            | some (k', r1) =>
                match r1 with
                | ':' :: r2 =>
                    match parseV fuel r2 with
                    | none => none
                    | some (v', r3) =>
                        match r3 with
                        | ',' :: r4 =>
                            (parseMembers fuel r4).map (fun p : List (List Char × JVal) × List Char => ((k', v') :: p.1, p.2))
                        | '}' :: r4 => some ([(k', v')], r4)
                        | _ => none
                | _ => none) = _
      rw [parseStrBody_append k (':' :: (renderV v ++ ',' ::
        (renderMembers ((k2, v2) :: ms2) ++ rest))) hk]
      show (match parseV fuel (renderV v ++ ',' ::
              (renderMembers ((k2, v2) :: ms2) ++ rest)) with
            | none => none
            | some (v', r3) =>
                match r3 with
                | ',' :: r4 => (parseMembers fuel r4).map (fun p : List (List Char × JVal) × List Char => ((k, v') :: p.1, p.2))
                | '}' :: r4 => some ([(k, v')], r4)
                | _ => none) = _
      rw [hv]
      show (parseMembers fuel (renderMembers ((k2, v2) :: ms2) ++ rest)).map _ = _
      rw [key]
      rfl
  termination_by k v ms _ _ _ _ => sizeOf v + sizeOf ms

end

/-- Parsing a dumped well-formed document gives it back exactly. -/
theorem jsonLoads_jsonDumps (doc : JVal) (h : wfV doc = true) :
    jsonLoads (jsonDumps doc) = some doc := by
  have hrt := rtV doc ((renderV doc).length + 1) [] h (by omega) (by rfl)
  rw [List.append_nil] at hrt
  unfold jsonLoads jsonDumps
  rw [hrt]

/-- C2: serializing a merged Record to its per-record cache document
(as `refresh_index` does with `json.dump`) and reloading it (as
`_load_record` does with `json.load`, whose `gbrecord` wrapper copies
the dict unchanged) reproduces the whole document — hence every field —
exactly, for the JSON-representable types: integers stay `jint`, floats
stay `jfloat` (the int-versus-float distinction of the parsed limits),
strings, lists and `null` come back unchanged.  Well-formedness asks
only that float literals carry decimal digits and strings need no
escaping, the range `json.dump(ensure_ascii=False)` writes literally. -/
theorem cacheRoundTrip (engine csfile date : List Char) (r : Rec JVal)
    (h : wfV (encodeRec engine csfile date r) = true) :
    jsonLoads (jsonDumps (encodeRec engine csfile date r))
      = some (encodeRec engine csfile date r) :=
  jsonLoads_jsonDumps _ h

/-- Witness for `cacheRoundTrip`: a concrete two-category record with
an integer cid, float limits (`SML = 0.6`, `CP0max = 5000.0`), a `null`
QM, lists and CJK text. -/
theorem cacheRoundTrip_witness :
    wfV (encodeRec "SFPPy: GBappendixA module".data "GB9685-2016.csv".data
      "2025-04-01 00:00:00".data
      { fca := "0001".data, cid := some 712, cas := ["50-00-0".data],
        authorizedIn := ["plastics".data, "coatings".data],
        chineseName := "甲醛".data,
        branches :=
          [("plastics".data, .one (.jobj
              [("SML".data, .jfloat false 0 [6]), ("QM".data, .jnull),
               ("CP0max".data, .jfloat false 5000 [0]),
               ("comment1".data, .jstr [])])),
           ("coatings".data, .many
              [.jobj [("SML".data, .jint 15), ("DL".data, .jfloat false 0 [0, 1])]])] })
        = true ∧
    jsonLoads (jsonDumps (encodeRec "SFPPy: GBappendixA module".data
      "GB9685-2016.csv".data "2025-04-01 00:00:00".data
      { fca := "0001".data, cid := some 712, cas := ["50-00-0".data],
        authorizedIn := ["plastics".data, "coatings".data],
        chineseName := "甲醛".data,
        branches :=
          [("plastics".data, .one (.jobj
              [("SML".data, .jfloat false 0 [6]), ("QM".data, .jnull),
               ("CP0max".data, .jfloat false 5000 [0]),
               ("comment1".data, .jstr [])])),
           ("coatings".data, .many
              [.jobj [("SML".data, .jint 15), ("DL".data, .jfloat false 0 [0, 1])]])] }))
      = some (encodeRec "SFPPy: GBappendixA module".data "GB9685-2016.csv".data
        "2025-04-01 00:00:00".data
        { fca := "0001".data, cid := some 712, cas := ["50-00-0".data],
          authorizedIn := ["plastics".data, "coatings".data],
          chineseName := "甲醛".data,
          branches :=
            [("plastics".data, .one (.jobj
                [("SML".data, .jfloat false 0 [6]), ("QM".data, .jnull),
                 ("CP0max".data, .jfloat false 5000 [0]),
                 ("comment1".data, .jstr [])])),
             ("coatings".data, .many
                [.jobj [("SML".data, .jint 15), ("DL".data, .jfloat false 0 [0, 1])]])] }) :=
  ⟨by decide, cacheRoundTrip _ _ _ _ (by decide)⟩

/-- Witness for `containsDispatch` on a concrete index. -/
theorem containsDispatch_witness :
    (containsGB ⟨["7".data], ["99".data], ["50-00-0".data]⟩ (.kint 7) = .ok true ↔
        (pyStrOfInt 7 ∈ ["7".data] ∨ pyStrOfInt 7 ∈ ["99".data])) ∧
    (containsGB ⟨["7".data], ["99".data], ["50-00-0".data]⟩ (.kstr "50-00-0".data) = .ok true ↔
        "50-00-0".data ∈ ["50-00-0".data]) :=
  ⟨(containsDispatch ⟨["7".data], ["99".data], ["50-00-0".data]⟩).1 7,
   (containsDispatch ⟨["7".data], ["99".data], ["50-00-0".data]⟩).2.1 "50-00-0".data⟩

end SFPPy
